import Mathlib

/-!
# Kingfisher static evaluator: a shallow embedding

Embedded sources: `src/evaluate.cpp` and `src/masks.cpp`.

* A bitboard (`uint64_t`) is a natural number below `2 ^ 64`; shifts to the left are
  reduced modulo `2 ^ 64`, complement is taken inside 64 bits.
* `int` scores are mathematical integers.
* A `float` is an IEEE 754 binary32 number, held as the rational it denotes.  `f32` rounds a
  rational to the nearest binary32 value, ties to the even significand, with gradual
  underflow; every conversion of an `int` to `float` and every `float` product or sum of the
  pawn loop is rounded with it.  The conversion of a `float` to `int` on assignment is
  truncation toward zero (`truncQ`).  Every operation is rounded on its own (no fused
  multiply-add, no extended precision); overflow to infinity (magnitudes of `2 ^ 128` and
  more) is outside the model.
* The phase is a `float` that the program only passes on to `taperedScore`; it is held as a
  rational and `getPhase` computes it without rounding.
* The headers `bitboard.h`, `types.h`, `board.h`, `attacks.h`, `evaluate.h` are not part of
  the embedded sources.  Their tuned constants, tables and helpers are the fields of
  `Consts`; the geometric masks and the bit primitives are modelled from the
  specification text.
-/

namespace Kingfisher

/-! ## Enumerations of `types.h` -/

/-- Modelled from the spec: the enumerators of `types.h` are missing; the two real colours
index tables of size two (`pawnAdvanceMasks[8][2]`), the sentinel follows them. -/
abbrev WHITE : Nat := 0

/-- Modelled from the spec: second colour, see `WHITE`. -/
abbrev BLACK : Nat := 1

/-- Modelled from the spec: the sentinel colour indexing the empty-square bitboard. -/
abbrev NO_COLOR : Nat := 2

/-- Modelled from the spec: piece types of `types.h`, "one of Pawn, Knight, Bishop, Rook,
Queen, King", ordered so that "below King" means "has finite material value". -/
abbrev PAWN : Nat := 0

/-- Modelled from the spec: piece type, see `PAWN`. -/
abbrev KNIGHT : Nat := 1

/-- Modelled from the spec: piece type, see `PAWN`. -/
abbrev BISHOP : Nat := 2

/-- Modelled from the spec: piece type, see `PAWN`. -/
abbrev ROOK : Nat := 3

/-- Modelled from the spec: piece type, see `PAWN`. -/
abbrev QUEEN : Nat := 4

/-- Modelled from the spec: piece type, see `PAWN`. -/
abbrev KING : Nat := 5

/-- Modelled from the spec: `SQUARE_NUM` of `types.h`, the 64 squares of the board. -/
abbrev SQUARE_NUM : Nat := 64

/-! ## 64-bit words -/

/-- The value `2 ^ 64 - 1`, all 64 bits set. -/
def U64_MAX : Nat := 2 ^ 64 - 1

/-- C++ `~x` on `uint64_t`. -/
def bnot (x : Nat) : Nat := (x ^^^ U64_MAX) % 2 ^ 64

/-- C++ `x << k` on `uint64_t`: bits shifted past bit 63 are lost. -/
def shl (x k : Nat) : Nat := (x <<< k) % 2 ^ 64

/-- C++ `x >> k` on `uint64_t`. -/
def shr (x k : Nat) : Nat := x >>> k

/-! ## Primitives of `bitboard.h` -/

/-- Modelled from the spec: `fileMasks` of `bitboard.h` is missing; "8 bitboards, one bit set
per square sharing that file", with square = rank * 8 + file. -/
def fileMasks (f : Nat) : Nat := 0x0101010101010101 <<< f

/-- Modelled from the spec: `rankMasks` of `bitboard.h` is missing; "8 bitboards, one per
rank", with square = rank * 8 + file. -/
def rankMasks (r : Nat) : Nat := 0xFF <<< (8 * r)

/-- Modelled from the spec: the A-file edge mask of `bitboard.h` (file index 0). -/
def fileAMask : Nat := fileMasks 0

/-- Modelled from the spec: the H-file edge mask of `bitboard.h` (file index 7). -/
def fileHMask : Nat := fileMasks 7

/-- Modelled from the spec: `countBits` of `bitboard.h` is missing; the number of set bits of a
64-bit word. -/
def countBits (x : Nat) : Nat := ((List.range 64).filter (fun i => x.testBit i)).length

/-- Modelled from the spec: `lsb` of `bitboard.h` is missing; the index of the least
significant set bit.  The C++ primitive is undefined on 0; the model answers 64 there. -/
def lsb (x : Nat) : Nat := ((List.range 64).find? (fun i => x.testBit i)).getD 64

/-- Modelled from the spec: `popBit` of `bitboard.h` is missing; it returns the index of the
least significant set bit and clears that bit in its argument. -/
def popBit (x : Nat) : Nat × Nat := (lsb x, x &&& (x - 1))

/-- The loop `while (bb) { int sqr = popBit(bb); acc = body(acc, sqr); }`, with a fuel bound
on the number of iterations. -/
def popLoop {α : Type} (body : α → Nat → α) : Nat → Nat → α → α
  | 0, _, acc => acc
  | fuel + 1, bb, acc =>
    if bb = 0 then acc else popLoop body fuel (popBit bb).2 (body acc (popBit bb).1)

/-- Conversion of a `float` to `int`: truncation toward zero. -/
def truncQ (q : ℚ) : Int := Int.tdiv q.num q.den

/-! ## Binary32 rounding -/

/-- Round a rational to the nearest integer, ties to the even integer. -/
def roundHalfEven (q : ℚ) : Int :=
  if q - ⌊q⌋ < 1 / 2 then ⌊q⌋
  else if 1 / 2 < q - ⌊q⌋ then ⌊q⌋ + 1
  else if ⌊q⌋ % 2 = 0 then ⌊q⌋ else ⌊q⌋ + 1

/-- Search for the binary32 exponent of `q`: the largest `e` among `n - 126, ..., -125` with
`2 ^ e ≤ |q|`, and `-126` (the exponent of the subnormal range) when there is none. -/
def f32ExpSearch (q : ℚ) : Nat → Int
  | 0 => -126
  | n + 1 => if (2 : ℚ) ^ ((n : Int) - 126) ≤ |q| then (n : Int) - 126 else f32ExpSearch q n

/-- The binary32 exponent of `q`, between `-126` and `127`. -/
def f32Exponent (q : ℚ) : Int := f32ExpSearch q 254

/-- The unit in the last place of binary32 at `q`: a 24-bit significand. -/
def f32Ulp (q : ℚ) : ℚ := (2 : ℚ) ^ (f32Exponent q - 23)

/-- Rounding of a rational to binary32, round to nearest, ties to even: the conversion of an
`int` to `float` and the rounding of every `float` operation. -/
def f32 (q : ℚ) : ℚ := (roundHalfEven (q / f32Ulp q) : ℚ) * f32Ulp q

/-! ## The board snapshot and the tuned constants -/

/-- The read-only board snapshot of `board.h`, as far as the evaluator reads it. -/
structure Board where
  /-- Field `pieces[type]`: occupancy bitboard per piece type. -/
  pieces : Nat → Nat
  /-- Field `colors[color]`: occupancy bitboard per colour; index `NO_COLOR` holds the empty squares. -/
  colors : Nat → Nat
  /-- Field `squares[sqr]`: the mailbox, a piece code per square. -/
  squares : Int → Nat
  /-- Field `psqt`: the running piece-square total kept by the board. -/
  psqt : Int

/-- Constants, tables and external helpers that `evaluate.cpp` uses and that live in headers
outside the embedded sources. -/
structure Consts where
  /-- Mailbox code of an empty square. -/
  EMPTY : Nat
  /-- Helper `pieceType(code)`. -/
  pieceType : Nat → Nat
  /-- Table `pieceValues[type]` as (MG, EG). -/
  pieceValues : Nat → Int × Int
  /-- Constant `materialSum`. -/
  materialSum : ℚ
  /-- Helper `taperedScore(mg, eg, phase)`. -/
  taperedScore : Int → Int → ℚ → Int
  /-- Helper `psqtSquare(sqr, color)`. -/
  psqtSquare : Nat → Nat → Nat
  /-- Table `pawnPSQT`. -/
  pawnPSQT : Nat → Int
  /-- Table `knightPSQT`. -/
  knightPSQT : Nat → Int
  /-- Table `bishopPSQT`. -/
  bishopPSQT : Nat → Int
  /-- Table `rookPSQT`. -/
  rookPSQT : Nat → Int
  /-- Table `queenPSQT`. -/
  queenPSQT : Nat → Int
  /-- Table `kingPSQT[sqr]` as (MG, EG). -/
  kingPSQT : Nat → Int × Int
  /-- Constant `supportedPawnBonus`. -/
  supportedPawnBonus : Int
  /-- Constant `phalanxPawnBonus`. -/
  phalanxPawnBonus : Int
  /-- Table `passedBonus[rank]` as (MG, EG). -/
  passedBonus : Int → Int × Int
  /-- Constant `passedBlockReduction`, a `float`: the fraction written in the header, which
  the pawn loop uses rounded to binary32. -/
  passedBlockReduction : ℚ
  /-- Table `knightAttacks[sqr]`. -/
  knightAttacks : Nat → Nat
  /-- External `getBishopAttacks(b, color, sqr)`. -/
  getBishopAttacks : Board → Nat → Nat → Nat
  /-- External `getRookAttacks(b, color, sqr)`. -/
  getRookAttacks : Board → Nat → Nat → Nat
  /-- External `getQueenAttacks(b, color, sqr)`. -/
  getQueenAttacks : Board → Nat → Nat → Nat
  /-- Table `knightMobility`. -/
  knightMobility : Nat → Int
  /-- Table `bishopMobility`. -/
  bishopMobility : Nat → Int
  /-- Table `rookMobility`. -/
  rookMobility : Nat → Int
  /-- Table `queenMobility`. -/
  queenMobility : Nat → Int
  /-- Constant `kingAttackBonus`. -/
  kingAttackBonus : Int
  /-- Table `kingAttackerBonus[type]`. -/
  kingAttackerBonus : Nat → Int
  /-- Constant `bishopPairBonus`. -/
  bishopPairBonus : Int
  /-- Table `rookFileBonus[0..2]`. -/
  rookFileBonus : Nat → Int

/-! ## `masks.cpp` -/

/-- The loop `for (int j = 6; j > i; --j) wMask |= rankMasks[j];` started from 0. -/
def whiteAdvance (i : Nat) : Nat :=
  (List.range' (i + 1) (6 - i)).reverse.foldl (fun m j => m ||| rankMasks j) 0

/-- The loop `for (int j = 1; j < i; ++j) bMask |= rankMasks[j];` started from 0. -/
def blackAdvance (i : Nat) : Nat :=
  (List.range' 1 (i - 1)).foldl (fun m j => m ||| rankMasks j) 0

/-- Table `pawnAdvanceMasks[i][color]` after `initPawnAdvanceMasks`. -/
def pawnAdvanceMasks (i color : Nat) : Nat :=
  if color = WHITE then whiteAdvance i else blackAdvance i

/-- Table `neighborFileMasks[i]` after `initNeighborFileMasks`. -/
def neighborFileMasks (i : Nat) : Nat :=
  fileMasks i ||| fileMasks (max (0 : Int) ((i : Int) - 1)).toNat ||| fileMasks (min 7 (i + 1))

/-- Table `passedPawnMasks[sqr][color]` after `initPassedPawnMasks`. -/
def passedPawnMasks (sqr color : Nat) : Nat :=
  pawnAdvanceMasks (sqr / 8) color &&& neighborFileMasks (sqr % 8)

/-- Table `kingInnerRing[sqr]` after `initKingInnerRing`. -/
def kingInnerRing (sqr : Nat) : Nat :=
  let kingSquare := shl 1 sqr
  let diagonals := (shr kingSquare 7 &&& bnot fileAMask) ||| (shr kingSquare 9 &&& bnot fileHMask)
    ||| (shl kingSquare 7 &&& bnot fileHMask) ||| (shl kingSquare 9 &&& bnot fileAMask)
  let cardinals := (shr kingSquare 1 &&& bnot fileHMask) ||| (shl kingSquare 1 &&& bnot fileAMask)
    ||| shr kingSquare 8 ||| shl kingSquare 8
  kingSquare ||| diagonals ||| cardinals

/-! ## `evaluate.cpp` -/

/-- Function `genKingRing`. -/
def genKingRing (sqr : Nat) : Nat :=
  let kingSquare := shl 1 sqr
  let diagonals := (shr kingSquare 7 &&& bnot fileAMask) ||| (shr kingSquare 9 &&& bnot fileHMask)
    ||| (shl kingSquare 7 &&& bnot fileHMask) ||| (shl kingSquare 9 &&& bnot fileAMask)
  let cardinals := (shr kingSquare 1 &&& bnot fileHMask) ||| (shl kingSquare 1 &&& bnot fileAMask)
    ||| shr kingSquare 8 ||| shl kingSquare 8
  kingSquare ||| diagonals ||| cardinals

/-- Function `getPhase`: `material` is summed over the 64 mailbox entries, then divided by
`materialSum` and clamped at 1. -/
def getPhase (K : Consts) (b : Board) : ℚ :=
  let material : Int := (List.range SQUARE_NUM).foldl
    (fun (m : Int) (i : Nat) =>
      let piece := K.pieceType (b.squares (i : Int))
      if piece < KING then m + (K.pieceValues piece).1 else m) 0
  min 1 ((material : ℚ) / K.materialSum)

/-- Function `psqtScore`; falling off the switch is modelled as 0. -/
def psqtScore (K : Consts) (piece sqr : Nat) (phase : ℚ) : Int :=
  if piece = PAWN then K.pawnPSQT sqr
  else if piece = KNIGHT then K.knightPSQT sqr
  else if piece = BISHOP then K.bishopPSQT sqr
  else if piece = ROOK then K.rookPSQT sqr
  else if piece = QUEEN then K.queenPSQT sqr
  else if piece = KING then K.taperedScore (K.kingPSQT sqr).1 (K.kingPSQT sqr).2 phase
  else 0

/-- The rank mask built by the two loops at the head of `passed`. -/
def passedRankMask (rank color : Nat) : Nat :=
  if color = WHITE then
    (List.range' (rank + 1) (6 - rank)).reverse.foldl (fun m i => m ||| rankMasks i) 0
  else
    (List.range' 1 (rank - 1)).foldl (fun m i => m ||| rankMasks i) 0

/-- Function `passed` (the board argument is not read). -/
def passed (sqr enemyPawns color : Nat) : Int :=
  let rank := sqr / 8
  let file := sqr % 8
  let rankMask := passedRankMask rank color
  let fileMask := fileMasks file ||| fileMasks (max (0 : Int) ((file : Int) - 1)).toNat
    ||| fileMasks (min 7 (file + 1))
  if countBits (rankMask &&& fileMask &&& enemyPawns) = 0 then
    (if color = WHITE then (rank : Int) else 7 - (rank : Int))
  else 0

/-- Function `openFile`. -/
def openFile (b : Board) (file : Nat) : Nat :=
  let whitePawnsOnFile := fileMasks file &&& b.pieces PAWN &&& b.colors WHITE
  let blackPawnsOnFile := fileMasks file &&& b.pieces PAWN &&& b.colors BLACK
  (if whitePawnsOnFile = 0 then 1 else 0) + (if blackPawnsOnFile = 0 then 1 else 0)

/-- The supported-pawn count of `evaluatePawns` (the factor of `supportedPawnBonus`). -/
def supportedCount (pawns color : Nat) : Nat :=
  countBits (pawns &&& (if color = WHITE then shr pawns 7 &&& bnot fileAMask
                        else shl pawns 7 &&& bnot fileHMask)) +
  countBits (pawns &&& (if color = WHITE then shr pawns 9 &&& bnot fileHMask
                        else shl pawns 9 &&& bnot fileAMask))

/-- The phalanx count of `evaluatePawns` (the factor of `phalanxPawnBonus`). -/
def phalanxCount (pawns : Nat) : Nat :=
  countBits (pawns &&& shr pawns 1 &&& bnot fileHMask) +
  countBits (pawns &&& shl pawns 1 &&& bnot fileAMask)

/-- The tapered passed bonus looked up in the pawn loop of `evaluatePawns`. -/
def passedScoreOf (K : Consts) (sqr enemyPawns color : Nat) (phase : ℚ) : Int :=
  let passedRank := passed sqr enemyPawns color
  K.taperedScore (K.passedBonus passedRank).1 (K.passedBonus passedRank).2 phase

/-- One iteration of the pawn loop of `evaluatePawns`.  The conditional mixes the `int`
`passedScore` and the `float` product `passedScore * passedBlockReduction`, so its value is a
`float`: the `int` branch is converted, the product is a binary32 product of the converted
`passedScore` and the binary32 constant.  `eval += ...` converts `eval` to `float`, adds in
binary32 and converts the sum back to `int`. -/
def pawnStep (K : Consts) (b : Board) (enemyPawns color : Nat) (phase : ℚ)
    (eval : Int) (sqr : Nat) : Int :=
  let passedScore := passedScoreOf K sqr enemyPawns color phase
  let forward : Int := if color = WHITE then 8 else -8
  truncQ (f32 (f32 (eval : ℚ) +
    (if b.squares ((sqr : Int) + forward) = K.EMPTY then f32 (passedScore : ℚ)
     else f32 (f32 (passedScore : ℚ) * f32 K.passedBlockReduction))))

/-- Function `evaluatePawns`. -/
def evaluatePawns (K : Consts) (b : Board) (pawns enemyPawns color : Nat) (phase : ℚ) : Int :=
  let eval : Int := 0
  let eval := eval + (supportedCount pawns color : Int) * K.supportedPawnBonus
  let eval := eval + (phalanxCount pawns : Int) * K.phalanxPawnBonus
  popLoop (pawnStep K b enemyPawns color phase) 64 pawns eval

/-- The mobility and king-attack terms shared by the four piece evaluators, for one attack
bitboard. -/
def attackTerms (K : Consts) (mobility : Nat → Int) (piece : Nat)
    (attacks safeSquares enemyKingRing : Nat) : Int :=
  let kingAttacks := countBits (attacks &&& enemyKingRing)
  mobility (countBits (attacks &&& safeSquares)) + (kingAttacks : Int) * K.kingAttackBonus
    + (if kingAttacks > 0 then 1 else 0) * K.kingAttackerBonus piece

/-- Function `evaluateKnights`. -/
def evaluateKnights (K : Consts) (pieces safeSquares enemyKingRing : Nat) : Int :=
  popLoop (fun eval sqr =>
    eval + attackTerms K K.knightMobility KNIGHT (K.knightAttacks sqr) safeSquares enemyKingRing)
    64 pieces 0

/-- Function `evaluateBishops`; the loop state is (eval, count). -/
def evaluateBishops (K : Consts) (b : Board) (pieces safeSquares enemyKingRing color : Nat) : Int :=
  let r := popLoop (fun (st : Int × Nat) sqr =>
    (st.1 + attackTerms K K.bishopMobility BISHOP (K.getBishopAttacks b color sqr)
        safeSquares enemyKingRing, st.2 + 1))
    64 pieces (0, 0)
  if r.2 ≥ 2 then r.1 + K.bishopPairBonus else r.1

/-- Function `evaluateRooks`. -/
def evaluateRooks (K : Consts) (b : Board) (pieces safeSquares enemyKingRing color : Nat) : Int :=
  popLoop (fun eval sqr =>
    eval + attackTerms K K.rookMobility ROOK (K.getRookAttacks b color sqr)
        safeSquares enemyKingRing + K.rookFileBonus (openFile b (sqr % 8)))
    64 pieces 0

/-- Function `evaluateQueens`. -/
def evaluateQueens (K : Consts) (b : Board) (pieces safeSquares enemyKingRing color : Nat) : Int :=
  popLoop (fun eval sqr =>
    eval + attackTerms K K.queenMobility QUEEN (K.getQueenAttacks b color sqr)
        safeSquares enemyKingRing)
    64 pieces 0

/-- The material total of one colour: the loop `for (int i = PAWN; i <= QUEEN; ++i)`. -/
def materialOf (K : Consts) (b : Board) (color : Nat) (phase : ℚ) : Int :=
  (List.range' PAWN (QUEEN + 1 - PAWN)).foldl
    (fun m i => m + (countBits (b.pieces i &&& b.colors color) : Int)
      * K.taperedScore (K.pieceValues i).1 (K.pieceValues i).2 phase) 0

/-- Safe squares of White as computed in `evaluate`. -/
def whiteSafeSquaresOf (b : Board) : Nat :=
  let blackPawns := b.pieces PAWN &&& b.colors BLACK
  bnot ((shr blackPawns 7 &&& bnot fileAMask) ||| (shr blackPawns 9 &&& bnot fileHMask))
    &&& b.colors NO_COLOR

/-- Safe squares of Black as computed in `evaluate`. -/
def blackSafeSquaresOf (b : Board) : Nat :=
  let whitePawns := b.pieces PAWN &&& b.colors WHITE
  bnot ((shl whitePawns 7 &&& bnot fileHMask) ||| (shl whitePawns 9 &&& bnot fileAMask))
    &&& b.colors NO_COLOR

/-- The White-oriented total `eval` that `evaluate` holds just before its `return`. -/
def evalTotal (K : Consts) (b : Board) : Int :=
  let phase := getPhase K b
  let eval : Int := 0
  let whiteMaterial := materialOf K b WHITE phase
  let blackMaterial := materialOf K b BLACK phase
  let eval := eval + (whiteMaterial - blackMaterial)
  let eval := eval + b.psqt
  let whiteKingSqr := lsb (b.pieces KING &&& b.colors WHITE)
  let blackKingSqr := lsb (b.pieces KING &&& b.colors BLACK)
  let eval := eval + (psqtScore K KING (K.psqtSquare whiteKingSqr WHITE) phase
    - psqtScore K KING (K.psqtSquare blackKingSqr BLACK) phase)
  let whitePawns := b.pieces PAWN &&& b.colors WHITE
  let blackPawns := b.pieces PAWN &&& b.colors BLACK
  let eval := eval + evaluatePawns K b whitePawns blackPawns WHITE phase
  let eval := eval - evaluatePawns K b blackPawns whitePawns BLACK phase
  let whiteSafeSquares := whiteSafeSquaresOf b
  let blackSafeSquares := blackSafeSquaresOf b
  let whiteKingRing := genKingRing whiteKingSqr
  let blackKingRing := genKingRing blackKingSqr
  let eval := eval + evaluateKnights K (b.pieces KNIGHT &&& b.colors WHITE) whiteSafeSquares blackKingRing
  let eval := eval + evaluateBishops K b (b.pieces BISHOP &&& b.colors WHITE) whiteSafeSquares blackKingRing WHITE
  let eval := eval + evaluateRooks K b (b.pieces ROOK &&& b.colors WHITE) whiteSafeSquares blackKingRing WHITE
  let eval := eval + evaluateQueens K b (b.pieces QUEEN &&& b.colors WHITE) whiteSafeSquares blackKingRing WHITE
  let eval := eval - evaluateKnights K (b.pieces KNIGHT &&& b.colors BLACK) blackSafeSquares whiteKingRing
  let eval := eval - evaluateBishops K b (b.pieces BISHOP &&& b.colors BLACK) blackSafeSquares whiteKingRing BLACK
  let eval := eval - evaluateRooks K b (b.pieces ROOK &&& b.colors BLACK) blackSafeSquares whiteKingRing BLACK
  let eval := eval - evaluateQueens K b (b.pieces QUEEN &&& b.colors BLACK) blackSafeSquares whiteKingRing BLACK
  eval

/-- Function `evaluate`. -/
def evaluate (K : Consts) (b : Board) (color : Nat) : Int :=
  if color = WHITE then evalTotal K b else -evalTotal K b

/-! ## Definitions that follow the words of the specification -/

/-- The forward cone as the specification words it: "the intersection of (all ranks strictly
ahead of that square in the side's advancing direction) and (neighbor-file mask of that
square's file)", ranks rank+1..7 for White and ranks 0..rank-1 for Black. -/
def specForwardCone (sqr color : Nat) : Nat :=
  (if color = WHITE then
    (List.range' (sqr / 8 + 1) (7 - sqr / 8)).foldl (fun m j => m ||| rankMasks j) 0
   else
    (List.range (sqr / 8)).foldl (fun m j => m ||| rankMasks j) 0)
  &&& neighborFileMasks (sqr % 8)

/-- Number of neighbours of a square on the 8x8 grid: 3 for a corner, 5 for another edge
square, 8 for an interior square. -/
def neighbourCount (sqr : Nat) : Nat :=
  if (sqr % 8 = 0 ∨ sqr % 8 = 7) ∧ (sqr / 8 = 0 ∨ sqr / 8 = 7) then 3
  else if (sqr % 8 = 0 ∨ sqr % 8 = 7) ∨ (sqr / 8 = 0 ∨ sqr / 8 = 7) then 5
  else 8

/-- Two squares are at most one file and one rank apart. -/
def adjacentOrEqual (sqr t : Nat) : Prop :=
  t % 8 ≤ sqr % 8 + 1 ∧ sqr % 8 ≤ t % 8 + 1 ∧ t / 8 ≤ sqr / 8 + 1 ∧ sqr / 8 ≤ t / 8 + 1

instance (sqr t : Nat) : Decidable (adjacentOrEqual sqr t) := by
  unfold adjacentOrEqual; infer_instance

/-! ## Concrete constants and boards for instances -/

/-- The bitboard of the squares below 64 that satisfy a predicate. -/
def bbOf (p : Nat → Bool) : Nat :=
  (List.range 64).foldl (fun acc s => if p s then acc ||| (1 <<< s) else acc) 0

/-- Mailbox lookup in a list of 64 piece codes; code 12 is the empty square. -/
def codeAt (codes : List Nat) (i : Int) : Nat :=
  if 0 ≤ i then codes.getD i.toNat 12 else 12

/-- A board snapshot built from 64 piece codes `2 * type + colour` (12 for empty), for
concrete instances. -/
def mkBoard (codes : List Nat) (psqt : Int) : Board where
  pieces := fun t => bbOf (fun s => codes.getD s 12 ≠ 12 ∧ codes.getD s 12 / 2 = t)
  colors := fun c =>
    if c = NO_COLOR then bbOf (fun s => codes.getD s 12 = 12)
    else bbOf (fun s => codes.getD s 12 ≠ 12 ∧ codes.getD s 12 % 2 = c)
  squares := codeAt codes
  psqt := psqt

/-- A knight attack table for concrete instances: the eight knight jumps by shifts, masked
against file wraparound. -/
def knightAttacksOf (s : Nat) : Nat :=
  let k := shl 1 s
  let notA := bnot fileAMask
  let notH := bnot fileHMask
  let notAB := bnot (fileAMask ||| fileMasks 1)
  let notGH := bnot (fileHMask ||| fileMasks 6)
  (shl k 17 &&& notA) ||| (shl k 15 &&& notH) ||| (shl k 10 &&& notAB) ||| (shl k 6 &&& notGH)
    ||| (shr k 17 &&& notH) ||| (shr k 15 &&& notA) ||| (shr k 10 &&& notGH) ||| (shr k 6 &&& notAB)

/-- A list of 64 piece codes from (square, code) pairs; other squares are empty (code 12). -/
def placeCodes (ps : List (Nat × Nat)) : List Nat :=
  (List.range 64).map (fun s => (ps.lookup s).getD 12)

/-- Piece codes of a sample position: White king h1, pawns b2 c3, knight f3, bishops c1 d3;
Black king g8, rook a8, queen d8, pawns h7 c5. -/
def sampleCodes : List Nat :=
  placeCodes [(7, 10), (9, 0), (18, 0), (21, 2), (2, 4), (19, 4),
    (62, 11), (56, 7), (59, 9), (55, 1), (34, 1)]

/-- A concrete set of constants with non-negative bonuses, for concrete instances. -/
def demoConsts : Consts where
  EMPTY := 12
  pieceType := fun c => c / 2
  pieceValues := fun t => [(100, 120), (320, 300), (330, 320), (500, 550), (900, 950)].getD t (0, 0)
  materialSum := 8000
  taperedScore := fun mg eg phase => truncQ ((eg : ℚ) + ((mg : ℚ) - (eg : ℚ)) * phase)
  psqtSquare := fun s c => if c = WHITE then s ^^^ 56 else s
  pawnPSQT := fun _ => 0
  knightPSQT := fun _ => 0
  bishopPSQT := fun _ => 0
  rookPSQT := fun _ => 0
  queenPSQT := fun _ => 0
  kingPSQT := fun s => ((s % 8 : Nat), (s / 8 : Nat))
  supportedPawnBonus := 10
  phalanxPawnBonus := 8
  passedBonus := fun r => [(0, 0), (5, 10), (10, 20), (20, 40), (40, 80), (80, 160), (160, 320)].getD r.toNat (0, 0)
  passedBlockReduction := 1 / 2
  knightAttacks := knightAttacksOf
  getBishopAttacks := fun _ _ _ => 0
  getRookAttacks := fun _ _ s => fileMasks (s % 8) ^^^ rankMasks (s / 8)
  getQueenAttacks := fun _ _ s => (fileMasks (s % 8) ||| rankMasks (s / 8)) ^^^ shl 1 s
  knightMobility := fun n => n
  bishopMobility := fun n => n
  rookMobility := fun n => 2 * n
  queenMobility := fun n => n
  kingAttackBonus := 3
  kingAttackerBonus := fun _ => 7
  bishopPairBonus := 30
  rookFileBonus := fun n => 10 * n

/-- Piece codes of the standard starting position. -/
def startCodes : List Nat :=
  [6, 2, 4, 8, 10, 4, 2, 6] ++ List.replicate 8 0 ++ List.replicate 32 12 ++ List.replicate 8 1
    ++ [7, 3, 5, 9, 11, 5, 3, 7]

/-- Piece codes of a position with the two kings only (e1 and e8). -/
def kingsCodes : List Nat :=
  List.replicate 4 12 ++ [10] ++ List.replicate 55 12 ++ [11] ++ List.replicate 3 12

/-- The file mask that `passed` builds for a square. -/
def passedFileMask (sqr : Nat) : Nat :=
  fileMasks (sqr % 8) ||| fileMasks (max (0 : Int) (((sqr % 8 : Nat) : Int) - 1)).toNat
    ||| fileMasks (min 7 (sqr % 8 + 1))

/-- An enemy pawn stands in the forward cone of `sqr`: on a rank strictly ahead in the
advancing direction of `color`, on the same or a horizontally adjacent file. -/
def enemyAhead (sqr enemyPawns color : Nat) : Prop :=
  ∃ t, enemyPawns.testBit t = true ∧
    (if color = WHITE then sqr / 8 < t / 8 else t / 8 < sqr / 8) ∧
    t % 8 ≤ sqr % 8 + 1 ∧ sqr % 8 ≤ t % 8 + 1

/-- Piece codes: White king h1, White pawns b2 and c3, Black king b3 (blocking b2). -/
def blockedCodes : List Nat :=
  List.replicate 7 12 ++ [10] ++ [12, 0] ++ List.replicate 6 12 ++ [12, 11, 0] ++ List.replicate 45 12

/-- The forward offset of the pawn loop. -/
def forwardOf (color : Nat) : Int := if color = WHITE then 8 else -8

/-- Number of unordered pairs of pawns on horizontally adjacent squares of one rank: squares
`s` and `s + 1` with `s` not on the H-file. -/
def phalanxPairs (pawns : Nat) : Nat :=
  (List.range 64).countP (fun s => decide (s % 8 ≠ 7) && pawns.testBit s && pawns.testBit (s + 1))

/-- The set squares of a 64-bit word in ascending order, the order in which `popBit`
delivers them. -/
def bitsOf (x : Nat) : List Nat := (List.range 64).filter (fun i => x.testBit i)

/-- The word `y` is the vertical flip of the word `x`: square `s` of `y` is square
`s XOR 56` of `x`. -/
def IsFlip (x y : Nat) : Prop := ∀ s, s < 64 → y.testBit s = x.testBit (s ^^^ 56)

/-- A pawn bitboard has no pawn on rank index 0 or 7. -/
def PawnsConfined (pawns : Nat) : Prop := pawns &&& (rankMasks 0 ||| rankMasks 7) = 0

instance (pawns : Nat) : Decidable (PawnsConfined pawns) := by
  unfold PawnsConfined; infer_instance

instance (x y : Nat) : Decidable (IsFlip x y) := by
  unfold IsFlip; infer_instance

/-- A friendly pawn defends the pawn on `p` from the lower neighbouring file: it stands one
rank behind `p` (relative to the advancing direction of `color`) on the file to the left. -/
def defendedFromLeft (pawns color p : Nat) : Bool :=
  decide (p % 8 ≠ 0) &&
    (if color = WHITE then decide (9 ≤ p) && pawns.testBit (p - 9)
     else decide (p + 7 < 64) && pawns.testBit (p + 7))

/-- A friendly pawn defends the pawn on `p` from the higher neighbouring file: it stands one
rank behind `p` on the file to the right. -/
def defendedFromRight (pawns color p : Nat) : Bool :=
  decide (p % 8 ≠ 7) &&
    (if color = WHITE then decide (7 ≤ p) && pawns.testBit (p - 7)
     else decide (p + 9 < 64) && pawns.testBit (p + 9))

/-- Number of own pawns defended by at least one diagonally adjacent friendly pawn, each
counted once (the count the specification words). -/
def defendedCount (pawns color : Nat) : Nat :=
  (List.range 64).countP (fun p =>
    pawns.testBit p && (defendedFromLeft pawns color p || defendedFromRight pawns color p))

/-- Number of own pawns defended from both sides. -/
def doublyDefendedCount (pawns color : Nat) : Nat :=
  (List.range 64).countP (fun p =>
    pawns.testBit p && (defendedFromLeft pawns color p && defendedFromRight pawns color p))

/-- A pawn of the given colour stands on file `f`. -/
def pawnOnFile (b : Board) (color f : Nat) : Prop :=
  ∃ s, s < 64 ∧ s % 8 = f ∧ (b.pieces PAWN).testBit s = true ∧ (b.colors color).testBit s = true

/-- The board with the two colour bitboards exchanged. -/
def swapColors (b : Board) : Board :=
  { b with colors := fun c =>
      if c = WHITE then b.colors BLACK else if c = BLACK then b.colors WHITE else b.colors c }

/-- The per-knight term as the specification words it: mobility bonus, king-ring squares
times the per-square bonus, and the king-attacker bonus once if any ring square is attacked. -/
def knightTerm (K : Consts) (safeSquares enemyKingRing s : Nat) : Int :=
  K.knightMobility (countBits (K.knightAttacks s &&& safeSquares))
    + (countBits (K.knightAttacks s &&& enemyKingRing) : Int) * K.kingAttackBonus
    + (if countBits (K.knightAttacks s &&& enemyKingRing) > 0 then K.kingAttackerBonus KNIGHT else 0)

/-- The square `t` is attacked by a pawn capture of a pawn in `pawns` of colour
`attackerColor`: a pawn stands one rank behind `t` (seen from the attacker's advancing
direction) on a horizontally adjacent file. -/
def pawnAttacks (pawns attackerColor t : Nat) : Prop :=
  ∃ p, p < 64 ∧ pawns.testBit p = true ∧
    (if attackerColor = WHITE then p / 8 + 1 = t / 8 else p / 8 = t / 8 + 1) ∧
    (p % 8 + 1 = t % 8 ∨ t % 8 + 1 = p % 8)

instance (pawns attackerColor t : Nat) : Decidable (pawnAttacks pawns attackerColor t) := by
  unfold pawnAttacks; infer_instance

/-- White pawns of the starting position: squares 8..15. -/
def startWhitePawns : Nat := 0xFF00

/-- Black pawns of the starting position: squares 48..55. -/
def startBlackPawns : Nat := 0xFF000000000000

/-- The total `eval` of `evaluatePawns` when its loop starts: the supported and the phalanx
term. -/
def pawnStart (K : Consts) (pawns color : Nat) : Int :=
  (0 : Int) + (supportedCount pawns color : Int) * K.supportedPawnBonus
    + (phalanxCount pawns : Int) * K.phalanxPawnBonus

/-- Read of the 7-entry table `passedBonus`, failing outside the indices 0..6. -/
def passedBonusAt (K : Consts) (rank : Int) : Option (Int × Int) :=
  if 0 ≤ rank ∧ rank ≤ 6 then some (K.passedBonus rank) else none

/-- Read of the 64-entry mailbox `b.squares`, failing outside the indices 0..63. -/
def squareAt (b : Board) (i : Int) : Option Nat :=
  if 0 ≤ i ∧ i ≤ 63 then some (b.squares i) else none

/-- One iteration of the pawn loop of `evaluatePawns` with its two table reads guarded.  The
state is the running total with the number of iterations done so far, or `none` once a read
was out of bounds. -/
def pawnStepChecked (K : Consts) (b : Board) (enemyPawns color : Nat) (phase : ℚ)
    (state : Option (Int × Nat)) (sqr : Nat) : Option (Int × Nat) :=
  match state with
  | none => none
  | some (eval, iterations) =>
    let passedRank := passed sqr enemyPawns color
    match passedBonusAt K passedRank with
    | none => none
    | some bonus =>
      let passedScore := K.taperedScore bonus.1 bonus.2 phase
      let forward : Int := if color = WHITE then 8 else -8
      match squareAt b ((sqr : Int) + forward) with
      | none => none
      | some occupant =>
        some (truncQ (f32 (f32 (eval : ℚ) +
          (if occupant = K.EMPTY then f32 (passedScore : ℚ)
           else f32 (f32 (passedScore : ℚ) * f32 K.passedBlockReduction)))), iterations + 1)

/-- Function `evaluatePawns` with guarded table reads and an iteration counter, run with a
given fuel. -/
def evaluatePawnsChecked (K : Consts) (b : Board) (pawns enemyPawns color : Nat) (phase : ℚ)
    (fuel : Nat) : Option (Int × Nat) :=
  let eval : Int := 0
  let eval := eval + (supportedCount pawns color : Int) * K.supportedPawnBonus
  let eval := eval + (phalanxCount pawns : Int) * K.phalanxPawnBonus
  popLoop (pawnStepChecked K b enemyPawns color phase) fuel pawns (some (eval, 0))

/-- A 64-bit word has no bit at position 64 or above. -/
theorem testBit_false_of_lt {x t : Nat} (hx : x < 2 ^ 64) (ht : 64 ≤ t) :
    x.testBit t = false :=
  Nat.testBit_lt_two_pow (lt_of_lt_of_le hx (Nat.pow_le_pow_right (by norm_num) ht))

/-- The king ring of an on-board square is a 64-bit word. -/
theorem genKingRing_lt : ∀ sqr < 64, genKingRing sqr < 2 ^ 64 := by decide

/-- C1: side symmetry. For every board snapshot, `evaluate` for White is the negation of
`evaluate` for Black: both calls compute the same White-oriented total and only the
return negates it. -/
theorem evaluate_side_symmetry (K : Consts) (b : Board) :
    evaluate K b WHITE = - evaluate K b BLACK := by
  simp [evaluate]

/-- C3 as stated fails: the king-ring mask of the corner square 0 holds 4 squares, not 3,
because `genKingRing` also sets the king's own square. -/
theorem kingRing_count_counterexample :
    countBits (genKingRing 0) = 4 ∧ neighbourCount 0 = 3 ∧
      (genKingRing 0).testBit 0 = true ∧ countBits (genKingRing 0) ≠ neighbourCount 0 := by
  decide

set_option maxRecDepth 100000 in
/-- C3 amended: for every square, `genKingRing sqr` (which is `kingInnerRing sqr`) contains
the square itself, and besides it exactly 3, 5 or 8 squares (corner, other edge, interior):
its population count is the neighbour count plus one. -/
theorem kingRing_count (sqr : Nat) (h : sqr < 64) :
    genKingRing sqr = kingInnerRing sqr ∧ (genKingRing sqr).testBit sqr = true ∧
      countBits (genKingRing sqr) = neighbourCount sqr + 1 ∧
      countBits (genKingRing sqr &&& bnot (shl 1 sqr)) = neighbourCount sqr := by
  revert sqr; decide

/-- Witness of `kingRing_count` at the corner square 7. -/
theorem kingRing_count_witness :
    7 < 64 ∧ (genKingRing 7 = kingInnerRing 7 ∧ (genKingRing 7).testBit 7 = true ∧
      countBits (genKingRing 7) = neighbourCount 7 + 1 ∧
      countBits (genKingRing 7 &&& bnot (shl 1 7)) = neighbourCount 7) :=
  ⟨by decide, kingRing_count 7 (by decide)⟩

set_option maxRecDepth 100000 in
/-- Bit-level description of the king ring on the board. -/
theorem genKingRing_testBit : ∀ sqr < 64, ∀ t < 64,
    ((genKingRing sqr).testBit t = true ↔ adjacentOrEqual sqr t) := by
  decide

/-- C4: no wraparound in the king ring. Every square set in `genKingRing sqr` (equally
`kingInnerRing sqr`) is on the board and at most one file and one rank away from `sqr`;
conversely every on-board square other than `sqr` within that distance is set. -/
theorem kingRing_no_wraparound (sqr : Nat) (h : sqr < 64) :
    kingInnerRing sqr = genKingRing sqr ∧
    (∀ t, (genKingRing sqr).testBit t = true → t < 64 ∧ adjacentOrEqual sqr t) ∧
    (∀ t, t < 64 → t ≠ sqr → adjacentOrEqual sqr t → (genKingRing sqr).testBit t = true) := by
  refine ⟨rfl, ?_, ?_⟩
  · intro t ht
    have h64 : t < 64 := by
      by_contra hge
      rw [testBit_false_of_lt (genKingRing_lt sqr h) (not_lt.mp hge)] at ht
      exact Bool.false_ne_true ht
    exact ⟨h64, (genKingRing_testBit sqr h t h64).mp ht⟩
  · intro t ht _ hadj
    exact (genKingRing_testBit sqr h t ht).mpr hadj

/-- Witness of `kingRing_no_wraparound` at the A-file square 24. -/
theorem kingRing_no_wraparound_witness :
    24 < 64 ∧ (kingInnerRing 24 = genKingRing 24 ∧
    (∀ t, (genKingRing 24).testBit t = true → t < 64 ∧ adjacentOrEqual 24 t) ∧
    (∀ t, t < 64 → t ≠ 24 → adjacentOrEqual 24 t → (genKingRing 24).testBit t = true)) :=
  ⟨by decide, kingRing_no_wraparound 24 (by decide)⟩

/-- The neighbour-file masks are 64-bit words. -/
theorem neighborFileMasks_lt : ∀ f < 8, neighborFileMasks f < 2 ^ 64 := by decide

set_option maxRecDepth 100000 in
/-- Bit-level description of the neighbour-file masks on the board. -/
theorem neighborFileMasks_testBit : ∀ f < 8, ∀ s < 64,
    ((neighborFileMasks f).testBit s = true ↔ (s % 8 ≤ f + 1 ∧ f ≤ s % 8 + 1)) := by
  decide

/-- C5: neighbour-file masks. For every file f and square s, s is set in
`neighborFileMasks f` exactly when the file of s is within one of f; the mask of file 0 is
files A and B only, the mask of file 7 is files G and H only. -/
theorem neighborFileMasks_spec (f : Nat) (hf : f < 8) :
    (∀ s, s < 64 → ((neighborFileMasks f).testBit s = true ↔ (s % 8 ≤ f + 1 ∧ f ≤ s % 8 + 1))) ∧
    (∀ s, 64 ≤ s → (neighborFileMasks f).testBit s = false) ∧
    neighborFileMasks 0 = fileMasks 0 ||| fileMasks 1 ∧
    neighborFileMasks 7 = fileMasks 6 ||| fileMasks 7 := by
  refine ⟨fun s hs => neighborFileMasks_testBit f hf s hs,
    fun s hs => testBit_false_of_lt (neighborFileMasks_lt f hf) hs, by decide, by decide⟩

/-- Witness of `neighborFileMasks_spec` at file 0. -/
theorem neighborFileMasks_spec_witness :
    0 < 8 ∧ ((∀ s, s < 64 → ((neighborFileMasks 0).testBit s = true ↔ (s % 8 ≤ 0 + 1 ∧ 0 ≤ s % 8 + 1))) ∧
    (∀ s, 64 ≤ s → (neighborFileMasks 0).testBit s = false) ∧
    neighborFileMasks 0 = fileMasks 0 ||| fileMasks 1 ∧
    neighborFileMasks 7 = fileMasks 6 ||| fileMasks 7) :=
  ⟨by decide, neighborFileMasks_spec 0 (by decide)⟩

/-- C6 as stated fails: for square 0 and White the table entry leaves out rank index 7,
which the cone over all ranks strictly ahead contains. -/
theorem passedPawnMasks_counterexample :
    passedPawnMasks 0 WHITE ≠ specForwardCone 0 WHITE ∧
      (specForwardCone 0 WHITE).testBit 56 = true ∧ (passedPawnMasks 0 WHITE).testBit 56 = false := by
  decide

/-- C6 amended: for every square, the table entry is the cone of the specification without
the far back rank: ranks rank+1..6 for White (rank index 7 removed), ranks 1..rank-1 for
Black (rank index 0 removed), intersected with the neighbour-file mask. -/
theorem passedPawnMasks_spec (sqr : Nat) (h : sqr < 64) :
    passedPawnMasks sqr WHITE = specForwardCone sqr WHITE &&& bnot (rankMasks 7) ∧
    passedPawnMasks sqr BLACK = specForwardCone sqr BLACK &&& bnot (rankMasks 0) := by
  revert sqr; decide

/-- Witness of `passedPawnMasks_spec` at square 12. -/
theorem passedPawnMasks_spec_witness :
    12 < 64 ∧ (passedPawnMasks 12 WHITE = specForwardCone 12 WHITE &&& bnot (rankMasks 7) ∧
    passedPawnMasks 12 BLACK = specForwardCone 12 BLACK &&& bnot (rankMasks 0)) :=
  ⟨by decide, passedPawnMasks_spec 12 (by decide)⟩

/-- A left fold whose step keeps non-negative totals non-negative ends non-negative. -/
theorem foldl_nonneg {β : Type} (f : Int → β → Int) (hf : ∀ m x, 0 ≤ m → 0 ≤ f m x) :
    ∀ (l : List β) (acc : Int), 0 ≤ acc → 0 ≤ l.foldl f acc := by
  intro l
  induction l with
  | nil => intro acc h; simpa using h
  | cons x xs ih => intro acc h; exact ih _ (hf acc x h)

/-- A left fold whose step never changes the total returns the initial total. -/
theorem foldl_fixed {β : Type} (f : Int → β → Int) (l : List β) (hf : ∀ x ∈ l, ∀ m, f m x = m) :
    ∀ (acc : Int), l.foldl f acc = acc := by
  induction l with
  | nil => intro acc; rfl
  | cons x xs ih =>
    intro acc
    rw [List.foldl_cons, hf x (List.mem_cons_self x xs) acc]
    exact ih (fun y hy => hf y (List.mem_cons_of_mem x hy)) acc

/-- C7: phase bounds. With non-negative midgame piece values and a positive `materialSum`,
`getPhase` (exact rational `min 1 (material / materialSum)`) lies in [0, 1]; and when every
occupied square holds a king and empty squares contribute nothing to the material sum,
`getPhase` is 0. -/
theorem getPhase_bounds (K : Consts) (b : Board)
    (hval : ∀ t, t < KING → 0 ≤ (K.pieceValues t).1) (hsum : 0 < K.materialSum) :
    (0 ≤ getPhase K b ∧ getPhase K b ≤ 1) ∧
    ((∀ i : Nat, i < 64 → b.squares (i : Int) ≠ K.EMPTY → K.pieceType (b.squares (i : Int)) = KING) →
     (KING ≤ K.pieceType K.EMPTY ∨ (K.pieceValues (K.pieceType K.EMPTY)).1 = 0) →
     getPhase K b = 0) := by
  refine ⟨⟨?_, ?_⟩, ?_⟩
  · unfold getPhase
    refine le_min zero_le_one (div_nonneg ?_ hsum.le)
    have := foldl_nonneg (fun (m : Int) (i : Nat) =>
        if K.pieceType (b.squares (i : Int)) < KING then
          m + (K.pieceValues (K.pieceType (b.squares (i : Int)))).1 else m)
      (by
        intro m x hm
        dsimp only
        split
        · next h => exact add_nonneg hm (hval _ h)
        · exact hm) (List.range SQUARE_NUM) 0 le_rfl
    exact_mod_cast this
  · unfold getPhase
    exact min_le_left _ _
  · intro hk he
    unfold getPhase
    have hfix := foldl_fixed (fun (m : Int) (i : Nat) =>
        if K.pieceType (b.squares (i : Int)) < KING then
          m + (K.pieceValues (K.pieceType (b.squares (i : Int)))).1 else m)
      (List.range SQUARE_NUM)
      (by
        intro x hx m
        dsimp only
        have hx64 : x < 64 := List.mem_range.mp hx
        split
        · next h =>
          by_cases hempty : b.squares (x : Int) = K.EMPTY
          · rw [hempty] at h ⊢
            rcases he with he | he
            · exact absurd h (not_lt.mpr he)
            · rw [he, add_zero]
          · rw [hk x hx64 hempty] at h
            exact absurd h (lt_irrefl _)
        · rfl) 0
    dsimp only at hfix ⊢
    rw [hfix]
    simp

set_option maxRecDepth 100000 in
/-- Witness of `getPhase_bounds`: the starting position and the bare-kings position. -/
theorem getPhase_bounds_witness :
    (∀ t, t < KING → 0 ≤ (demoConsts.pieceValues t).1) ∧ 0 < demoConsts.materialSum ∧
    (0 ≤ getPhase demoConsts (mkBoard startCodes 0) ∧ getPhase demoConsts (mkBoard startCodes 0) ≤ 1) ∧
    getPhase demoConsts (mkBoard kingsCodes 0) = 0 :=
  ⟨by decide, by with_unfolding_all decide,
   (getPhase_bounds demoConsts (mkBoard startCodes 0) (by decide) (by with_unfolding_all decide)).1,
   (getPhase_bounds demoConsts (mkBoard kingsCodes 0) (by decide) (by with_unfolding_all decide)).2
     (by decide) (by decide)⟩

/-- The population count is zero exactly when none of the 64 bits is set. -/
theorem countBits_eq_zero_iff (x : Nat) :
    countBits x = 0 ↔ ∀ i, i < 64 → x.testBit i = false := by
  unfold countBits
  rw [List.length_eq_zero, List.filter_eq_nil_iff]
  constructor
  · intro h i hi
    have := h i (List.mem_range.mpr hi)
    simpa using this
  · intro h i hi
    simp [h i (List.mem_range.mp hi)]

set_option maxRecDepth 100000 in
/-- Bit-level description of the mask `rankMask & fileMask` of `passed`, White. -/
theorem passedMask_testBit_white : ∀ sqr < 64, ∀ t < 64,
    ((passedRankMask (sqr / 8) WHITE &&& passedFileMask sqr).testBit t = true ↔
      (sqr / 8 < t / 8 ∧ t / 8 ≤ 6 ∧ t % 8 ≤ sqr % 8 + 1 ∧ sqr % 8 ≤ t % 8 + 1)) := by
  decide

set_option maxRecDepth 100000 in
/-- Bit-level description of the mask `rankMask & fileMask` of `passed`, Black. -/
theorem passedMask_testBit_black : ∀ sqr < 64, ∀ t < 64,
    ((passedRankMask (sqr / 8) BLACK &&& passedFileMask sqr).testBit t = true ↔
      (t / 8 < sqr / 8 ∧ 1 ≤ t / 8 ∧ t % 8 ≤ sqr % 8 + 1 ∧ sqr % 8 ≤ t % 8 + 1)) := by
  decide

/-- The test of `passed`, unfolded. -/
theorem passed_eq (sqr enemyPawns color : Nat) :
    passed sqr enemyPawns color =
      if countBits (passedRankMask (sqr / 8) color &&& passedFileMask sqr &&& enemyPawns) = 0 then
        (if color = WHITE then ((sqr / 8 : Nat) : Int) else 7 - ((sqr / 8 : Nat) : Int))
      else 0 := rfl

/-- The mask test of `passed` succeeds exactly when no enemy pawn stands in the forward cone. -/
theorem passed_mask_zero_iff (sqr enemyPawns color : Nat) (hc : color = WHITE ∨ color = BLACK)
    (hs : sqr < 64) (hen : ∀ t, enemyPawns.testBit t = true → 8 ≤ t ∧ t < 56) :
    countBits (passedRankMask (sqr / 8) color &&& passedFileMask sqr &&& enemyPawns) = 0 ↔
      ¬ enemyAhead sqr enemyPawns color := by
  rw [countBits_eq_zero_iff]
  unfold enemyAhead
  constructor
  · rintro h ⟨t, ht, hah, hf1, hf2⟩
    obtain ⟨h8, h56⟩ := hen t ht
    have ht64 : t < 64 := by omega
    have hb := h t ht64
    rw [Nat.testBit_land, ht, Bool.and_true] at hb
    rcases hc with rfl | rfl
    · have := (passedMask_testBit_white sqr hs t ht64).mpr
        ⟨by simpa using hah, by omega, hf1, hf2⟩
      rw [this] at hb; exact Bool.noConfusion hb
    · have := (passedMask_testBit_black sqr hs t ht64).mpr
        ⟨by simpa using hah, by omega, hf1, hf2⟩
      rw [this] at hb; exact Bool.noConfusion hb
  · intro h t ht64
    by_contra hb
    rw [Bool.not_eq_false, Nat.testBit_land, Bool.and_eq_true] at hb
    obtain ⟨hm, he⟩ := hb
    apply h
    rcases hc with rfl | rfl
    · obtain ⟨h1, _, h3, h4⟩ := (passedMask_testBit_white sqr hs t ht64).mp hm
      exact ⟨t, he, by simpa using h1, h3, h4⟩
    · obtain ⟨h1, _, h3, h4⟩ := (passedMask_testBit_black sqr hs t ht64).mp hm
      exact ⟨t, he, by simpa using h1, h3, h4⟩

/-- The sample enemy pawns (squares 17 and 51) stand on ranks index 1..6. -/
theorem bits_of_sample : ∀ t, (2 ^ 51 + 2 ^ 17 : Nat).testBit t = true → 8 ≤ t ∧ t < 56 := by
  intro t ht
  by_cases h : t < 64
  · revert ht; revert t; decide
  · rw [testBit_false_of_lt (by norm_num) (not_lt.mp h)] at ht
    exact Bool.noConfusion ht

/-- C8: passed-pawn detection. For each side, every square `sqr` on ranks index 1..6 and
every enemy-pawn bitboard confined to ranks index 1..6, `passed` is non-zero exactly when no
enemy pawn stands on a rank strictly ahead of `sqr` on its file or an adjacent file; then
the result is `sqr / 8` for White and `7 - sqr / 8` for Black, and otherwise it is 0. -/
theorem passed_spec (sqr enemyPawns color : Nat) (hc : color = WHITE ∨ color = BLACK)
    (hs1 : 8 ≤ sqr) (hs2 : sqr < 56)
    (hen : ∀ t, enemyPawns.testBit t = true → 8 ≤ t ∧ t < 56) :
    (passed sqr enemyPawns color ≠ 0 ↔ ¬ enemyAhead sqr enemyPawns color) ∧
    (¬ enemyAhead sqr enemyPawns color →
      passed sqr enemyPawns color =
        if color = WHITE then ((sqr / 8 : Nat) : Int) else 7 - ((sqr / 8 : Nat) : Int)) ∧
    (enemyAhead sqr enemyPawns color → passed sqr enemyPawns color = 0) := by
  have hz := passed_mask_zero_iff sqr enemyPawns color hc (by omega) hen
  have hr1 : 1 ≤ sqr / 8 := by omega
  have hr2 : sqr / 8 ≤ 6 := by omega
  rw [passed_eq]
  refine ⟨?_, ?_, ?_⟩
  · constructor
    · intro h
      intro hn
      rw [if_neg (fun hc0 => (hz.mp hc0) hn)] at h
      exact h rfl
    · intro h
      rw [if_pos (hz.mpr h)]
      rcases hc with rfl | rfl
      · simp only [if_true]; omega
      · simp only [show ¬ (BLACK = WHITE) by decide, if_false]; omega
  · intro h
    rw [if_pos (hz.mpr h)]
  · intro h
    rw [if_neg (fun hc0 => (hz.mp hc0) h)]

/-- Witness of `passed_spec`: a White pawn on square 28 against pawns on 17 and 51. -/
theorem passed_spec_witness :
    (WHITE = WHITE ∨ WHITE = BLACK) ∧ 8 ≤ 28 ∧ 28 < 56 ∧
    (∀ t, (2 ^ 51 + 2 ^ 17 : Nat).testBit t = true → 8 ≤ t ∧ t < 56) ∧
    ((passed 28 (2 ^ 51 + 2 ^ 17) WHITE ≠ 0 ↔ ¬ enemyAhead 28 (2 ^ 51 + 2 ^ 17) WHITE) ∧
    (¬ enemyAhead 28 (2 ^ 51 + 2 ^ 17) WHITE →
      passed 28 (2 ^ 51 + 2 ^ 17) WHITE =
        if WHITE = WHITE then ((28 / 8 : Nat) : Int) else 7 - ((28 / 8 : Nat) : Int)) ∧
    (enemyAhead 28 (2 ^ 51 + 2 ^ 17) WHITE → passed 28 (2 ^ 51 + 2 ^ 17) WHITE = 0)) :=
  ⟨by decide, by decide, by decide, bits_of_sample,
   passed_spec 28 (2 ^ 51 + 2 ^ 17) WHITE (by decide) (by decide) (by decide) bits_of_sample⟩

/-- Truncation of a non-negative rational is its floor. -/
theorem truncQ_of_nonneg {q : ℚ} (h : 0 ≤ q) : truncQ q = ⌊q⌋ := by
  unfold truncQ
  rw [Int.tdiv_eq_ediv (Rat.num_nonneg.mpr h) (Int.ofNat_nonneg _), Rat.floor_def]

/-- Truncation commutes with negation. -/
theorem truncQ_neg (q : ℚ) : truncQ (-q) = - truncQ q := by
  unfold truncQ
  rw [Rat.neg_num, Rat.neg_den, Int.neg_tdiv]

/-- Truncation of a non-positive rational is its ceiling. -/
theorem truncQ_of_nonpos {q : ℚ} (h : q ≤ 0) : truncQ q = ⌈q⌉ := by
  have h1 : truncQ (- -q) = - truncQ (-q) := truncQ_neg (-q)
  rw [neg_neg] at h1
  rw [h1, truncQ_of_nonneg (neg_nonneg.mpr h), Int.floor_neg, neg_neg]

/-- Truncation leaves integers unchanged. -/
theorem truncQ_intCast (n : Int) : truncQ (n : ℚ) = n := by
  rcases le_total 0 (n : ℚ) with h | h
  · rw [truncQ_of_nonneg h, Int.floor_intCast]
  · rw [truncQ_of_nonpos h, Int.ceil_intCast]

/-- Bits of a word shifted left inside 64 bits. -/
theorem testBit_shl (x k i : Nat) :
    (shl x k).testBit i = (decide (i < 64) && (decide (k ≤ i) && x.testBit (i - k))) := by
  unfold shl
  rw [Nat.testBit_mod_two_pow, Nat.testBit_shiftLeft]

/-- Bits of a word shifted right. -/
theorem testBit_shr (x k i : Nat) : (shr x k).testBit i = x.testBit (k + i) := by
  unfold shr
  rw [Nat.testBit_shiftRight]

/-- Bits of the 64-bit complement. -/
theorem testBit_bnot (x i : Nat) : (bnot x).testBit i = (decide (i < 64) && !x.testBit i) := by
  unfold bnot U64_MAX
  rw [Nat.testBit_mod_two_pow, Nat.testBit_xor, Nat.testBit_two_pow_sub_one]
  by_cases h : i < 64 <;> simp [h]

/-- Bits of the A-file mask. -/
theorem testBit_fileAMask (i : Nat) : fileAMask.testBit i = (decide (i < 64) && decide (i % 8 = 0)) := by
  by_cases h : i < 64
  · revert i; decide
  · rw [testBit_false_of_lt (by decide) (not_lt.mp h)]; simp [h]

/-- Bits of the H-file mask. -/
theorem testBit_fileHMask (i : Nat) : fileHMask.testBit i = (decide (i < 64) && decide (i % 8 = 7)) := by
  by_cases h : i < 64
  · revert i; decide
  · rw [testBit_false_of_lt (by decide) (not_lt.mp h)]; simp [h]

/-- The population count as a `countP` over the 64 squares. -/
theorem countBits_eq_countP (x : Nat) :
    countBits x = (List.range 64).countP (fun i => x.testBit i) := by
  unfold countBits
  rw [List.countP_eq_length_filter]

/-- Two words with the same predicate on the 64 squares have the same population count. -/
theorem countBits_congr (x : Nat) (p : Nat → Bool) (h : ∀ i, i < 64 → x.testBit i = p i) :
    countBits x = (List.range 64).countP p := by
  rw [countBits_eq_countP]
  exact List.countP_congr (fun i hi => by rw [h i (List.mem_range.mp hi)])

/-- The first phalanx count: pawns with a pawn on the next square of the same rank. -/
theorem phalanx_right (pawns : Nat) :
    countBits (pawns &&& shr pawns 1 &&& bnot fileHMask) = phalanxPairs pawns := by
  unfold phalanxPairs
  apply countBits_congr
  intro i hi
  rw [Nat.testBit_land, Nat.testBit_land, testBit_shr, testBit_bnot, testBit_fileHMask, add_comm 1 i]
  by_cases h7 : i % 8 = 7 <;> simp [hi, h7]

/-- Counting a predicate shifted by one square over `n + 1` squares. -/
theorem countP_range_shift (q : Nat → Bool) (n : Nat) :
    (List.range (n + 1)).countP (fun i => decide (1 ≤ i) && q (i - 1)) = (List.range n).countP q := by
  rw [List.range_succ_eq_map, List.countP_cons, List.countP_map]
  simp only [Nat.le_zero_eq, Nat.succ_ne_zero, decide_False, Bool.false_and, Bool.false_eq_true,
    if_false, add_zero]
  apply List.countP_congr
  intro i _
  simp

/-- A predicate false at `n` counts the same over `n + 1` squares as over `n`. -/
theorem countP_range_succ_of_false (q : Nat → Bool) (n : Nat) (h : q n = false) :
    (List.range (n + 1)).countP q = (List.range n).countP q := by
  rw [List.range_succ, List.countP_append]
  simp [h]

/-- The second phalanx count: pawns with a pawn on the previous square of the same rank. -/
theorem phalanx_left (pawns : Nat) :
    countBits (pawns &&& shl pawns 1 &&& bnot fileAMask) = phalanxPairs pawns := by
  unfold phalanxPairs
  rw [countBits_congr _ (fun i => decide (1 ≤ i) &&
      (fun s => decide (s % 8 ≠ 7) && pawns.testBit s && pawns.testBit (s + 1)) (i - 1))]
  · exact (countP_range_shift
        (fun s => decide (s % 8 ≠ 7) && pawns.testBit s && pawns.testBit (s + 1)) 63).trans
      (countP_range_succ_of_false _ 63 (by simp)).symm
  · intro i hi
    rw [Nat.testBit_land, Nat.testBit_land, testBit_shl, testBit_bnot, testBit_fileAMask]
    rcases Nat.eq_zero_or_pos i with h0 | h0
    · subst h0; simp
    · have e1 : i - 1 + 1 = i := by omega
      have e2 : ((i - 1) % 8 = 7) ↔ (i % 8 = 0) := by omega
      have h1 : 1 ≤ i := h0
      simp only [e1, hi, h1, decide_True, Bool.true_and]
      by_cases h8 : i % 8 = 0
      · simp [h8, e2.mpr h8]
      · have h7 : ¬ ((i - 1) % 8 = 7) := fun h => h8 (e2.mp h)
        simp only [h8, h7, decide_False, decide_True, Bool.not_false, Bool.and_true, ne_eq,
          not_false_eq_true, Bool.true_and]
        exact Bool.and_comm _ _

/-- C10: phalanx double counting. For every own-pawn bitboard the phalanx factor of
`evaluatePawns` is twice the number of pairs of pawns on horizontally adjacent squares of one
rank, so the phalanx term is `phalanxPawnBonus` times 2 times that number; neither count has
a bit that would pair an H-file square with the A-file square of the next rank. -/
theorem phalanx_double_count (K : Consts) (b : Board) (pawns enemyPawns color : Nat) (phase : ℚ) :
    phalanxCount pawns = 2 * phalanxPairs pawns ∧
    evaluatePawns K b pawns enemyPawns color phase =
      popLoop (pawnStep K b enemyPawns color phase) 64 pawns
        (0 + (supportedCount pawns color : Int) * K.supportedPawnBonus
          + ((2 * phalanxPairs pawns : Nat) : Int) * K.phalanxPawnBonus) ∧
    (∀ s, s % 8 = 7 → (pawns &&& shr pawns 1 &&& bnot fileHMask).testBit s = false) ∧
    (∀ s, s % 8 = 0 → (pawns &&& shl pawns 1 &&& bnot fileAMask).testBit s = false) := by
  have hc : phalanxCount pawns = 2 * phalanxPairs pawns := by
    unfold phalanxCount
    rw [phalanx_right, phalanx_left]
    omega
  refine ⟨hc, ?_, ?_, ?_⟩
  · unfold evaluatePawns
    rw [hc]
  · intro s hs
    rw [Nat.testBit_land, testBit_bnot, testBit_fileHMask]
    simp [hs]
  · intro s hs
    rw [Nat.testBit_land, testBit_bnot, testBit_fileAMask]
    simp [hs]

/-- Witness of `phalanx_double_count`: pawns on b2, c2 and h2, a3 form one pair. -/
theorem phalanx_double_count_witness :
    phalanxPairs (2 ^ 9 + 2 ^ 10 + 2 ^ 15 + 2 ^ 16) = 1 ∧
    phalanxCount (2 ^ 9 + 2 ^ 10 + 2 ^ 15 + 2 ^ 16) = 2 * phalanxPairs (2 ^ 9 + 2 ^ 10 + 2 ^ 15 + 2 ^ 16) :=
  ⟨by decide, (phalanx_double_count demoConsts (mkBoard startCodes 0)
    (2 ^ 9 + 2 ^ 10 + 2 ^ 15 + 2 ^ 16) 0 WHITE 1).1⟩

/-- Clearing the lowest set bit: `x & (x - 1)` keeps every bit of `x` but the lowest. -/
theorem testBit_clear_lowest (k : Nat) : ∀ (x : Nat), x.testBit k = true →
    (∀ j, j < k → x.testBit j = false) →
    ∀ i, (x &&& (x - 1)).testBit i = (x.testBit i && decide (i ≠ k)) := by
  induction k with
  | zero =>
    intro x hk _ i
    rw [Nat.testBit_land]
    have hodd : x % 2 = 1 := by simpa [Nat.testBit_zero] using hk
    cases i with
    | zero =>
      have : (x - 1) % 2 = 0 := by omega
      simp [Nat.testBit_zero, this]
    | succ j =>
      have : (x - 1) / 2 = x / 2 := by omega
      simp [Nat.testBit_succ, this]
  | succ k ih =>
    intro x hk hlow i
    have h0 : x.testBit 0 = false := hlow 0 (Nat.succ_pos k)
    have heven : x % 2 = 0 := by
      have := h0
      simp [Nat.testBit_zero] at this
      omega
    have hk2 : (x / 2).testBit k = true := by rw [← Nat.testBit_succ]; exact hk
    have hlow2 : ∀ j, j < k → (x / 2).testBit j = false := by
      intro j hj
      rw [← Nat.testBit_succ]
      exact hlow (j + 1) (Nat.succ_lt_succ hj)
    have hpos : 1 ≤ x / 2 := by
      rcases Nat.eq_zero_or_pos (x / 2) with hz | hz
      · rw [hz] at hk2; simp at hk2
      · exact hz
    cases i with
    | zero => rw [Nat.testBit_land, h0]; simp
    | succ j =>
      have hdiv : (x - 1) / 2 = x / 2 - 1 := by omega
      have := ih (x / 2) hk2 hlow2 j
      rw [Nat.testBit_land] at this
      rw [Nat.testBit_land, Nat.testBit_succ, Nat.testBit_succ, hdiv, this]
      simp

/-- What `find?` over `List.range n` returns: the least index satisfying the predicate. -/
theorem find_range_some (p : Nat → Bool) : ∀ (n k : Nat), (List.range n).find? p = some k →
    p k = true ∧ k < n ∧ ∀ j, j < k → p j = false := by
  intro n
  induction n with
  | zero => intro k h; simp at h
  | succ n ih =>
    intro k h
    rw [List.range_succ, List.find?_append] at h
    cases hf : (List.range n).find? p with
    | some k0 =>
      rw [hf] at h
      simp at h
      subst h
      obtain ⟨h1, h2, h3⟩ := ih k0 hf
      exact ⟨h1, Nat.lt_succ_of_lt h2, h3⟩
    | none =>
      rw [hf] at h
      simp at h
      obtain ⟨hp, rfl⟩ := h
      refine ⟨hp, Nat.lt_succ_self _, ?_⟩
      intro j hj
      have := List.find?_eq_none.mp hf j (List.mem_range.mpr hj)
      simpa using this

/-- Removing the first element that satisfies a predicate from a duplicate-free list. -/
theorem filter_drop_first (p : Nat → Bool) : ∀ (l : List Nat), l.Nodup → ∀ k,
    l.find? p = some k →
    l.filter p = k :: l.filter (fun i => p i && decide (i ≠ k)) := by
  intro l
  induction l with
  | nil => intro _ k h; simp at h
  | cons a l ih =>
    intro hnd k h
    rw [List.nodup_cons] at hnd
    by_cases hpa : p a = true
    · rw [List.find?_cons_of_pos _ hpa] at h
      simp at h
      subst h
      rw [List.filter_cons_of_pos hpa]
      congr 1
      rw [List.filter_cons_of_neg (by simp)]
      apply List.filter_congr
      intro x hx
      have : x ≠ a := fun e => hnd.1 (e ▸ hx)
      simp [this]
    · rw [List.find?_cons_of_neg _ hpa] at h
      rw [List.filter_cons_of_neg hpa, List.filter_cons_of_neg (by simp [hpa])]
      exact ih hnd.2 k h

/-- A non-zero 64-bit word has a set bit, `lsb` finds the lowest one, and `popBit` leaves
the remaining set squares. -/
theorem bitsOf_popBit (x : Nat) (hx : x < 2 ^ 64) (h0 : x ≠ 0) :
    bitsOf x = (popBit x).1 :: bitsOf (popBit x).2 := by
  have hex : ∃ i, i < 64 ∧ x.testBit i = true := by
    by_contra hne
    apply h0
    apply Nat.eq_of_testBit_eq
    intro i
    rw [Nat.zero_testBit]
    by_cases hi : i < 64
    · by_contra hb
      exact hne ⟨i, hi, by simpa using hb⟩
    · exact testBit_false_of_lt hx (not_lt.mp hi)
  obtain ⟨i, hi, hb⟩ := hex
  have hsome : ∃ k, (List.range 64).find? (fun i => x.testBit i) = some k := by
    cases hf : (List.range 64).find? (fun i => x.testBit i) with
    | some k => exact ⟨k, rfl⟩
    | none =>
      have := List.find?_eq_none.mp hf i (List.mem_range.mpr hi)
      simp [hb] at this
  obtain ⟨k, hk⟩ := hsome
  obtain ⟨hk1, _, hk3⟩ := find_range_some _ 64 k hk
  have hlsb : lsb x = k := by unfold lsb; rw [hk]; rfl
  unfold bitsOf popBit
  dsimp only
  rw [hlsb, filter_drop_first _ _ (List.nodup_range 64) k hk]
  congr 1
  apply List.filter_congr
  intro j _
  rw [testBit_clear_lowest k x hk1 hk3 j]

/-- A 64-bit word without set squares is zero. -/
theorem bitsOf_eq_nil {x : Nat} (hx : x < 2 ^ 64) (h : bitsOf x = []) : x = 0 := by
  by_contra h0
  rw [bitsOf_popBit x hx h0] at h
  exact List.cons_ne_nil _ _ h

/-- The word zero has no set squares. -/
theorem bitsOf_zero : bitsOf 0 = [] := by decide

/-- What `popBit` leaves is again a 64-bit word. -/
theorem popBit_lt (x : Nat) (hx : x < 2 ^ 64) : (popBit x).2 < 2 ^ 64 :=
  lt_of_le_of_lt Nat.and_le_left hx

/-- The `popBit` loop with enough fuel is the left fold of its body over the set squares
in ascending order. -/
theorem popLoop_eq_foldl {α : Type} (body : α → Nat → α) :
    ∀ (fuel x : Nat) (acc : α), x < 2 ^ 64 → (bitsOf x).length ≤ fuel →
      popLoop body fuel x acc = (bitsOf x).foldl body acc := by
  intro fuel
  induction fuel with
  | zero =>
    intro x acc hx hlen
    have hnil : bitsOf x = [] := List.length_eq_zero.mp (Nat.le_zero.mp hlen)
    rw [hnil]
    rfl
  | succ fuel ih =>
    intro x acc hx hlen
    unfold popLoop
    by_cases h0 : x = 0
    · rw [if_pos h0, h0, bitsOf_zero]; rfl
    · rw [if_neg h0]
      have hb := bitsOf_popBit x hx h0
      rw [hb] at hlen ⊢
      rw [List.foldl_cons]
      exact ih _ _ (popBit_lt x hx) (Nat.le_of_succ_le_succ hlen)

/-- A 64-bit word has at most 64 set squares. -/
theorem bitsOf_length_le (x : Nat) : (bitsOf x).length ≤ 64 := by
  unfold bitsOf
  exact (List.length_filter_le _ _).trans (by simp)

/-- The `popBit` loop of the evaluators (fuel 64) as a fold over the set squares. -/
theorem popLoop_64 {α : Type} (body : α → Nat → α) (x : Nat) (acc : α) (hx : x < 2 ^ 64) :
    popLoop body 64 x acc = (bitsOf x).foldl body acc :=
  popLoop_eq_foldl body 64 x acc hx (bitsOf_length_le x)

/-- The vertical flip of a square in rank and file terms. -/
theorem xor56_eq : ∀ s < 64, s ^^^ 56 = 56 - 8 * (s / 8) + s % 8 := by decide

/-- The vertical flip of a square stays on the board. -/
theorem xor56_lt (s : Nat) (h : s < 64) : s ^^^ 56 < 64 := by
  rw [xor56_eq s h]; omega

/-- Flipping a square twice gives the square back. -/
theorem xor56_xor56 (s : Nat) : s ^^^ 56 ^^^ 56 = s := by
  rw [Nat.xor_assoc, Nat.xor_self, Nat.xor_zero]

/-- The flip relation is symmetric. -/
theorem IsFlip.symm {x y : Nat} (h : IsFlip x y) : IsFlip y x := by
  intro s hs
  rw [h (s ^^^ 56) (xor56_lt s hs), xor56_xor56]

/-- Flip is compatible with `&`. -/
theorem IsFlip.and {x y u v : Nat} (h1 : IsFlip x y) (h2 : IsFlip u v) :
    IsFlip (x &&& u) (y &&& v) := by
  intro s hs
  rw [Nat.testBit_land, Nat.testBit_land, h1 s hs, h2 s hs]

/-- Flip is compatible with the 64-bit complement. -/
theorem IsFlip.bnot {x y : Nat} (h : IsFlip x y) : IsFlip (bnot x) (bnot y) := by
  intro s hs
  rw [testBit_bnot, testBit_bnot, h s hs]
  simp [hs, xor56_lt s hs]

/-- The squares of the board, flipped, are the squares of the board in another order. -/
theorem range_flip_perm : List.Perm ((List.range 64).map (fun i => i ^^^ 56)) (List.range 64) := by
  decide

/-- The set squares of a flipped word are the flipped set squares, up to order. -/
theorem IsFlip.bitsOf_perm {x y : Nat} (h : IsFlip x y) :
    List.Perm (bitsOf y) ((bitsOf x).map (fun i => i ^^^ 56)) := by
  have h1 : bitsOf y = (List.range 64).filter (fun s => x.testBit (s ^^^ 56)) := by
    unfold bitsOf
    apply List.filter_congr
    intro s hs
    rw [h s (List.mem_range.mp hs)]
  have h2 : ((List.range 64).map (fun i => i ^^^ 56)).filter (fun s => x.testBit (s ^^^ 56))
      = (bitsOf x).map (fun i => i ^^^ 56) := by
    unfold bitsOf
    rw [List.filter_map]
    congr 1
  rw [h1, ← h2]
  exact (range_flip_perm.filter _).symm

/-- A flipped word has the same population count. -/
theorem IsFlip.countBits_eq {x y : Nat} (h : IsFlip x y) : countBits y = countBits x := by
  have := h.bitsOf_perm.length_eq
  rw [List.length_map] at this
  exact this

/-- A flipped 64-bit word is zero exactly when the word is. -/
theorem IsFlip.eq_zero_iff {x y : Nat} (h : IsFlip x y) (hx : x < 2 ^ 64) (hy : y < 2 ^ 64) :
    y = 0 ↔ x = 0 := by
  constructor
  · intro hy0
    apply bitsOf_eq_nil hx
    have := h.countBits_eq
    rw [hy0] at this
    exact List.length_eq_zero.mp this.symm
  · intro hx0
    apply bitsOf_eq_nil hy
    have := h.countBits_eq
    rw [hx0] at this
    exact List.length_eq_zero.mp this

/-- Flipping the capture shift `>> 7` masked off the A-file gives `<< 9` masked off the A-file. -/
theorem flip_shr7 {x y : Nat} (hx : x < 2 ^ 64) (h : IsFlip x y) :
    IsFlip (shr x 7 &&& bnot fileAMask) (shl y 9 &&& bnot fileAMask) := by
  intro s hs
  have hf := xor56_lt s hs
  have he := xor56_eq s hs
  rw [Nat.testBit_land, Nat.testBit_land, testBit_shl, testBit_shr, testBit_bnot, testBit_bnot,
    testBit_fileAMask, testBit_fileAMask]
  have hmod : (s ^^^ 56) % 8 = s % 8 := by omega
  by_cases h0 : s % 8 = 0
  · simp [h0, hmod]
  · by_cases h9 : 9 ≤ s
    · have h9' : s - 9 < 64 := by omega
      have e : (s - 9) ^^^ 56 = 7 + (s ^^^ 56) := by
        rw [xor56_eq (s - 9) h9', he]; omega
      rw [h (s - 9) h9', e]
      simp [hs, hf, h0, hmod, h9]
    · have hbig : 64 ≤ 7 + (s ^^^ 56) := by omega
      rw [testBit_false_of_lt hx hbig]
      simp [h9]

/-- Flipping the capture shift `>> 9` masked off the H-file gives `<< 7` masked off the H-file. -/
theorem flip_shr9 {x y : Nat} (hx : x < 2 ^ 64) (h : IsFlip x y) :
    IsFlip (shr x 9 &&& bnot fileHMask) (shl y 7 &&& bnot fileHMask) := by
  intro s hs
  have hf := xor56_lt s hs
  have he := xor56_eq s hs
  rw [Nat.testBit_land, Nat.testBit_land, testBit_shl, testBit_shr, testBit_bnot, testBit_bnot,
    testBit_fileHMask, testBit_fileHMask]
  have hmod : (s ^^^ 56) % 8 = s % 8 := by omega
  by_cases h0 : s % 8 = 7
  · simp [h0, hmod]
  · by_cases h9 : 8 ≤ s
    · have h9' : s - 7 < 64 := by omega
      have e : (s - 7) ^^^ 56 = 9 + (s ^^^ 56) := by
        rw [xor56_eq (s - 7) h9', he]; omega
      have h7 : 7 ≤ s := by omega
      rw [h (s - 7) h9', e]
      simp [hs, hf, h0, hmod, h7]
    · have hbig : 64 ≤ 9 + (s ^^^ 56) := by omega
      rw [testBit_false_of_lt hx hbig]
      by_cases h7 : 7 ≤ s
      · have : s = 7 := by omega
        omega
      · simp [h7]

/-- The supported-pawn count of Black on the flipped pawns is that of White. -/
theorem supportedCount_flip {x y : Nat} (hx : x < 2 ^ 64) (h : IsFlip x y) :
    supportedCount y BLACK = supportedCount x WHITE := by
  unfold supportedCount
  simp only [show ¬ (BLACK = WHITE) by decide, if_false, if_true]
  rw [(h.and (flip_shr7 hx h)).countBits_eq.symm, (h.and (flip_shr9 hx h)).countBits_eq.symm]
  exact Nat.add_comm _ _

/-- The supported-pawn count of White on the flipped pawns is that of Black. -/
theorem supportedCount_flip_black {x y : Nat} (hy : y < 2 ^ 64) (h : IsFlip x y) :
    supportedCount y WHITE = supportedCount x BLACK :=
  (supportedCount_flip hy h.symm).symm

/-- Members of `bitsOf` are set squares of the board. -/
theorem mem_bitsOf {x s : Nat} (h : s ∈ bitsOf x) : s < 64 ∧ x.testBit s = true := by
  unfold bitsOf at h
  rw [List.mem_filter, List.mem_range] at h
  exact h

/-- A fold that adds a term per element is the initial value plus the sum of the terms. -/
theorem foldl_add_eq_sum (f : Nat → Int) : ∀ (l : List Nat) (a : Int),
    l.foldl (fun acc s => acc + f s) a = a + (l.map f).sum := by
  intro l
  induction l with
  | nil => intro a; simp
  | cons x xs ih => intro a; rw [List.foldl_cons, ih, List.map_cons, List.sum_cons]; ring

/-- A fold that adds a term and counts per element. -/
theorem foldl_pair_eq_sum (f : Nat → Int) : ∀ (l : List Nat) (a : Int) (n : Nat),
    l.foldl (fun (st : Int × Nat) s => (st.1 + f s, st.2 + 1)) (a, n)
      = (a + (l.map f).sum, n + l.length) := by
  intro l
  induction l with
  | nil => intro a n; simp
  | cons x xs ih =>
    intro a n
    rw [List.foldl_cons, ih, List.map_cons, List.sum_cons, List.length_cons]
    congr 1
    · ring
    · omega

/-- Function `evaluateKnights` as a sum over the knights. -/
theorem evaluateKnights_eq_sum (K : Consts) (pieces safe ring : Nat) (hp : pieces < 2 ^ 64) :
    evaluateKnights K pieces safe ring =
      ((bitsOf pieces).map (fun s =>
        attackTerms K K.knightMobility KNIGHT (K.knightAttacks s) safe ring)).sum := by
  unfold evaluateKnights
  rw [popLoop_64 _ _ _ hp, foldl_add_eq_sum, zero_add]

/-- Function `evaluateBishops` as a sum over the bishops plus the pair bonus. -/
theorem evaluateBishops_eq_sum (K : Consts) (b : Board) (pieces safe ring color : Nat)
    (hp : pieces < 2 ^ 64) :
    evaluateBishops K b pieces safe ring color =
      ((bitsOf pieces).map (fun s =>
        attackTerms K K.bishopMobility BISHOP (K.getBishopAttacks b color s) safe ring)).sum
      + (if countBits pieces ≥ 2 then K.bishopPairBonus else 0) := by
  unfold evaluateBishops
  rw [popLoop_64 _ _ _ hp, foldl_pair_eq_sum]
  simp only [zero_add]
  have : (bitsOf pieces).length = countBits pieces := rfl
  rw [this]
  split <;> simp

/-- Bits of the two back ranks. -/
theorem testBit_backRanks : ∀ s < 64,
    (rankMasks 0 ||| rankMasks 7).testBit s = (decide (s < 8) || decide (56 ≤ s)) := by
  decide

/-- A set square of a confined pawn bitboard lies on ranks index 1..6. -/
theorem PawnsConfined.range {x s : Nat} (h : PawnsConfined x) (hs : s ∈ bitsOf x) :
    8 ≤ s ∧ s < 56 := by
  obtain ⟨h64, hb⟩ := mem_bitsOf hs
  have : (x &&& (rankMasks 0 ||| rankMasks 7)).testBit s = false := by
    rw [h]; exact Nat.zero_testBit s
  rw [Nat.testBit_land, hb, testBit_backRanks s h64] at this
  simp at this
  omega

/-- The back ranks are their own flip. -/
theorem backRanks_flip : IsFlip (rankMasks 0 ||| rankMasks 7) (rankMasks 0 ||| rankMasks 7) := by
  decide

/-- The flip of a confined pawn bitboard is confined. -/
theorem PawnsConfined.flip {x y : Nat} (h : PawnsConfined x) (hx : x < 2 ^ 64) (hy : y < 2 ^ 64)
    (hf : IsFlip x y) : PawnsConfined y := by
  unfold PawnsConfined at h ⊢
  exact ((hf.and backRanks_flip).eq_zero_iff (lt_of_le_of_lt Nat.and_le_left hx)
    (lt_of_le_of_lt Nat.and_le_left hy)).mpr h

/-- The result of `passed` is a passed rank 0..6 for a pawn on ranks index 1..6. -/
theorem passed_range (s enemyPawns color : Nat) (h1 : 8 ≤ s) (h2 : s < 56) :
    0 ≤ passed s enemyPawns color ∧ passed s enemyPawns color ≤ 6 := by
  rw [passed_eq]
  split
  · split <;> omega
  · omega

/-- The file mask of an on-board file is a 64-bit word. -/
theorem fileMasks_lt : ∀ f < 8, fileMasks f < 2 ^ 64 := by decide

/-- Counting a predicate shifted by `k` squares. -/
theorem countP_range_shift_by (k : Nat) : ∀ (q : Nat → Bool) (n : Nat),
    (List.range (n + k)).countP (fun i => decide (k ≤ i) && q (i - k)) = (List.range n).countP q := by
  induction k with
  | zero => intro q n; simp
  | succ k ih =>
    intro q n
    have h1 := countP_range_shift (fun j => decide (k ≤ j) && q (j - k)) (n + k)
    rw [ih q n] at h1
    rw [← h1, ← Nat.add_assoc]
    apply List.countP_congr
    intro i _
    have e : i - 1 - k = i - (k + 1) := by omega
    by_cases hk : k + 1 ≤ i
    · have h1i : 1 ≤ i := by omega
      have hki : k ≤ i - 1 := by omega
      simp [hk, h1i, hki, e]
    · by_cases h1i : 1 ≤ i
      · have hki : ¬ k ≤ i - 1 := by omega
        simp [hk, h1i, hki]
      · simp [hk, h1i]

/-- A predicate false from `n` on counts the same over more squares. -/
theorem countP_range_add_of_false (q : Nat → Bool) (n : Nat) (h : ∀ j, n ≤ j → q j = false) :
    ∀ k, (List.range (n + k)).countP q = (List.range n).countP q := by
  intro k
  induction k with
  | zero => rfl
  | succ k ih =>
    rw [← Nat.add_assoc, countP_range_succ_of_false q (n + k) (h _ (Nat.le_add_right n k)), ih]

/-- Re-indexing a count over the board by a shift of `k` squares. -/
theorem countP_reindex (q : Nat → Bool) (n k : Nat) (h : ∀ j, n ≤ j → q j = false) :
    (List.range (n + k)).countP (fun i => decide (k ≤ i) && q (i - k))
      = (List.range (n + k)).countP q := by
  rw [countP_range_shift_by, countP_range_add_of_false q n h]

/-- Counting two predicates separately counts those satisfying both twice. -/
theorem countP_add_countP (p q : Nat → Bool) (l : List Nat) :
    l.countP p + l.countP q = l.countP (fun i => p i || q i) + l.countP (fun i => p i && q i) := by
  induction l with
  | nil => rfl
  | cons a l ih =>
    simp only [List.countP_cons]
    cases hp : p a <;> cases hq : q a <;> simp <;> omega

/-- White, first supported count: pairs seen from the defended pawn's right-hand defender. -/
theorem supported_white_right (pawns : Nat) (hx : pawns < 2 ^ 64) :
    countBits (pawns &&& (shr pawns 7 &&& bnot fileAMask))
      = (List.range 64).countP (fun p => pawns.testBit p && defendedFromRight pawns WHITE p) := by
  rw [countBits_congr _ (fun s => pawns.testBit s && pawns.testBit (s + 7) && decide (s % 8 ≠ 0))]
  · rw [← countP_reindex _ 57 7 (by
      intro j hj
      rw [testBit_false_of_lt hx (by omega : 64 ≤ j + 7)]
      simp)]
    apply List.countP_congr
    intro p _
    unfold defendedFromRight
    simp only [if_true]
    by_cases h7 : 7 ≤ p
    · have e1 : p - 7 + 7 = p := by omega
      have e2 : ((p - 7) % 8 ≠ 0) ↔ (p % 8 ≠ 7) := by omega
      simp only [h7, decide_True, Bool.true_and, e1, decide_eq_decide.mpr e2]
      cases pawns.testBit p <;> cases pawns.testBit (p - 7) <;> simp
    · simp [h7]
  · intro i hi
    rw [Nat.testBit_land, Nat.testBit_land, testBit_shr, testBit_bnot, testBit_fileAMask,
      Nat.add_comm 7 i]
    by_cases h0 : i % 8 = 0 <;> simp [hi, h0]

/-- White, second supported count: pairs seen from the defended pawn's left-hand defender. -/
theorem supported_white_left (pawns : Nat) (hx : pawns < 2 ^ 64) :
    countBits (pawns &&& (shr pawns 9 &&& bnot fileHMask))
      = (List.range 64).countP (fun p => pawns.testBit p && defendedFromLeft pawns WHITE p) := by
  rw [countBits_congr _ (fun s => pawns.testBit s && pawns.testBit (s + 9) && decide (s % 8 ≠ 7))]
  · rw [← countP_reindex _ 55 9 (by
      intro j hj
      rw [testBit_false_of_lt hx (by omega : 64 ≤ j + 9)]
      simp)]
    apply List.countP_congr
    intro p _
    unfold defendedFromLeft
    simp only [if_true]
    by_cases h9 : 9 ≤ p
    · have e1 : p - 9 + 9 = p := by omega
      have e2 : ((p - 9) % 8 ≠ 7) ↔ (p % 8 ≠ 0) := by omega
      simp only [h9, decide_True, Bool.true_and, e1, decide_eq_decide.mpr e2]
      cases pawns.testBit p <;> cases pawns.testBit (p - 9) <;> simp
    · simp [h9]
  · intro i hi
    rw [Nat.testBit_land, Nat.testBit_land, testBit_shr, testBit_bnot, testBit_fileHMask,
      Nat.add_comm 9 i]
    by_cases h0 : i % 8 = 7 <;> simp [hi, h0]

/-- Black, first supported count: pairs seen from the defended pawn's left-hand defender. -/
theorem supported_black_left (pawns : Nat) :
    countBits (pawns &&& (shl pawns 7 &&& bnot fileHMask))
      = (List.range 64).countP (fun p => pawns.testBit p && defendedFromLeft pawns BLACK p) := by
  rw [countBits_congr _ (fun s => decide (7 ≤ s) &&
      (fun p => pawns.testBit p && defendedFromLeft pawns BLACK p) (s - 7))]
  · exact countP_reindex (fun p => pawns.testBit p && defendedFromLeft pawns BLACK p) 57 7 (by
      intro j hj
      unfold defendedFromLeft
      have : ¬ (j + 7 < 64) := by omega
      simp [this])
  · intro i hi
    rw [Nat.testBit_land, Nat.testBit_land, testBit_shl, testBit_bnot, testBit_fileHMask]
    unfold defendedFromLeft
    simp only [show ¬ (BLACK = WHITE) by decide, if_false]
    by_cases h7 : 7 ≤ i
    · have e1 : i - 7 + 7 = i := by omega
      have e2 : ((i - 7) % 8 ≠ 0) ↔ (i % 8 ≠ 7) := by omega
      have e3 : i - 7 + 7 < 64 := by omega
      simp only [h7, hi, e3, decide_True, Bool.true_and, e1, decide_eq_decide.mpr e2]
      by_cases h0 : i % 8 = 7 <;>
        cases pawns.testBit i <;> cases pawns.testBit (i - 7) <;> simp [h0]
    · simp [h7]

/-- Black, second supported count: pairs seen from the defended pawn's right-hand defender. -/
theorem supported_black_right (pawns : Nat) :
    countBits (pawns &&& (shl pawns 9 &&& bnot fileAMask))
      = (List.range 64).countP (fun p => pawns.testBit p && defendedFromRight pawns BLACK p) := by
  rw [countBits_congr _ (fun s => decide (9 ≤ s) &&
      (fun p => pawns.testBit p && defendedFromRight pawns BLACK p) (s - 9))]
  · exact countP_reindex (fun p => pawns.testBit p && defendedFromRight pawns BLACK p) 55 9 (by
      intro j hj
      unfold defendedFromRight
      have : ¬ (j + 9 < 64) := by omega
      simp [this])
  · intro i hi
    rw [Nat.testBit_land, Nat.testBit_land, testBit_shl, testBit_bnot, testBit_fileAMask]
    unfold defendedFromRight
    simp only [show ¬ (BLACK = WHITE) by decide, if_false]
    by_cases h9 : 9 ≤ i
    · have e1 : i - 9 + 9 = i := by omega
      have e2 : ((i - 9) % 8 ≠ 7) ↔ (i % 8 ≠ 0) := by omega
      have e3 : i - 9 + 9 < 64 := by omega
      simp only [h9, hi, e3, decide_True, Bool.true_and, e1, decide_eq_decide.mpr e2]
      by_cases h0 : i % 8 = 0 <;>
        cases pawns.testBit i <;> cases pawns.testBit (i - 9) <;> simp [h0]
    · simp [h9]

/-- The supported count as a count of (defender, defended) pairs, located at the defended
pawn. -/
theorem supportedCount_eq_pairs (pawns color : Nat) (hc : color = WHITE ∨ color = BLACK)
    (hx : pawns < 2 ^ 64) :
    supportedCount pawns color
      = (List.range 64).countP (fun p => pawns.testBit p && defendedFromLeft pawns color p)
        + (List.range 64).countP (fun p => pawns.testBit p && defendedFromRight pawns color p) := by
  unfold supportedCount
  rcases hc with rfl | rfl
  · simp only [if_true]
    rw [supported_white_right pawns hx, supported_white_left pawns hx]
    exact Nat.add_comm _ _
  · simp only [show ¬ (BLACK = WHITE) by decide, if_false]
    rw [supported_black_left, supported_black_right]

/-- C11 amended: supported pawns. For each side and every 64-bit own-pawn bitboard the
supported factor of `evaluatePawns` is the number of own pawns defended by a diagonally
adjacent friendly pawn one rank behind, plus the number of own pawns defended from both
sides: a defended pawn counts once per defender, and the geometric definition admits no
defender across the A/H file boundary. -/
theorem supported_pawns_count (K : Consts) (b : Board) (pawns enemyPawns color : Nat) (phase : ℚ)
    (hc : color = WHITE ∨ color = BLACK) (hx : pawns < 2 ^ 64) :
    supportedCount pawns color = defendedCount pawns color + doublyDefendedCount pawns color ∧
    evaluatePawns K b pawns enemyPawns color phase =
      popLoop (pawnStep K b enemyPawns color phase) 64 pawns
        (0 + ((defendedCount pawns color + doublyDefendedCount pawns color : Nat) : Int)
            * K.supportedPawnBonus
          + (phalanxCount pawns : Int) * K.phalanxPawnBonus) := by
  have hs : supportedCount pawns color
      = defendedCount pawns color + doublyDefendedCount pawns color := by
    rw [supportedCount_eq_pairs pawns color hc hx, countP_add_countP]
    unfold defendedCount doublyDefendedCount
    congr 1
    · apply List.countP_congr
      intro p _
      cases pawns.testBit p <;> simp
    · apply List.countP_congr
      intro p _
      cases pawns.testBit p <;> simp
  refine ⟨hs, ?_⟩
  unfold evaluatePawns
  rw [hs]

/-- Witness of `supported_pawns_count`: White pawns b2, d2 and c3. -/
theorem supported_pawns_count_witness :
    (WHITE = WHITE ∨ WHITE = BLACK) ∧ (2 ^ 9 + 2 ^ 11 + 2 ^ 18 : Nat) < 2 ^ 64 ∧
    supportedCount (2 ^ 9 + 2 ^ 11 + 2 ^ 18) WHITE
      = defendedCount (2 ^ 9 + 2 ^ 11 + 2 ^ 18) WHITE
        + doublyDefendedCount (2 ^ 9 + 2 ^ 11 + 2 ^ 18) WHITE :=
  ⟨by decide, by decide,
   (supported_pawns_count demoConsts (mkBoard kingsCodes 0) (2 ^ 9 + 2 ^ 11 + 2 ^ 18) 0 WHITE 1
     (by decide) (by decide)).1⟩

set_option maxRecDepth 100000 in
/-- C11 as stated fails: with White pawns on b2, d2 and c3 exactly one pawn (c3) is defended,
but the supported factor is 2, one for each defender, and `evaluatePawns` returns twice the
bonus. -/
theorem supported_pawns_counterexample :
    (2 ^ 9 + 2 ^ 11 + 2 ^ 18 : Nat) < 2 ^ 64 ∧
    defendedCount (2 ^ 9 + 2 ^ 11 + 2 ^ 18) WHITE = 1 ∧
    supportedCount (2 ^ 9 + 2 ^ 11 + 2 ^ 18) WHITE = 2 ∧
    supportedCount (2 ^ 9 + 2 ^ 11 + 2 ^ 18) WHITE ≠ defendedCount (2 ^ 9 + 2 ^ 11 + 2 ^ 18) WHITE ∧
    evaluatePawns demoConsts (mkBoard kingsCodes 0) (2 ^ 9 + 2 ^ 11 + 2 ^ 18) (2 ^ 49 + 2 ^ 51 + 2 ^ 42)
      WHITE 1 = 2 * demoConsts.supportedPawnBonus := by
  decide!

/-- A 64-bit word is zero exactly when its population count is zero. -/
theorem eq_zero_iff_countBits {x : Nat} (hx : x < 2 ^ 64) : x = 0 ↔ countBits x = 0 := by
  constructor
  · intro h; rw [h]; decide
  · intro h
    exact bitsOf_eq_nil hx (List.length_eq_zero.mp h)

/-- C12: bishop pair. For every 64-bit bishop bitboard `evaluateBishops` is the sum of the
per-bishop mobility and king-attack terms, plus `bishopPairBonus` exactly once when two or
more bits are set, and plus nothing when one bit or none is set. -/
theorem bishop_pair_once (K : Consts) (b : Board) (pieces safeSquares enemyKingRing color : Nat)
    (hp : pieces < 2 ^ 64) :
    evaluateBishops K b pieces safeSquares enemyKingRing color =
      ((bitsOf pieces).map (fun s =>
        attackTerms K K.bishopMobility BISHOP (K.getBishopAttacks b color s)
          safeSquares enemyKingRing)).sum
      + (if 2 ≤ countBits pieces then K.bishopPairBonus else 0) ∧
    (countBits pieces ≤ 1 →
      evaluateBishops K b pieces safeSquares enemyKingRing color =
        ((bitsOf pieces).map (fun s =>
          attackTerms K K.bishopMobility BISHOP (K.getBishopAttacks b color s)
            safeSquares enemyKingRing)).sum) ∧
    (2 ≤ countBits pieces →
      evaluateBishops K b pieces safeSquares enemyKingRing color =
        ((bitsOf pieces).map (fun s =>
          attackTerms K K.bishopMobility BISHOP (K.getBishopAttacks b color s)
            safeSquares enemyKingRing)).sum + K.bishopPairBonus) := by
  have h := evaluateBishops_eq_sum K b pieces safeSquares enemyKingRing color hp
  refine ⟨h, ?_, ?_⟩
  · intro h1
    rw [h, if_neg (by omega), add_zero]
  · intro h2
    rw [h, if_pos h2]

/-- Bits of a file mask on the board. -/
theorem testBit_fileMasks : ∀ f < 8, ∀ s < 64,
    ((fileMasks f).testBit s = true ↔ s % 8 = f) := by
  decide

/-- The pawns of a colour on a file, as `openFile` masks them, are empty exactly when no
such pawn stands on the file. -/
theorem fileMask_pawns_eq_zero (b : Board) (color f : Nat) (hf : f < 8) :
    fileMasks f &&& b.pieces PAWN &&& b.colors color = 0 ↔ ¬ pawnOnFile b color f := by
  have hlt : fileMasks f &&& b.pieces PAWN &&& b.colors color < 2 ^ 64 :=
    lt_of_le_of_lt (Nat.and_le_left.trans Nat.and_le_left) (fileMasks_lt f hf)
  rw [eq_zero_iff_countBits hlt, countBits_eq_zero_iff]
  unfold pawnOnFile
  constructor
  · rintro h ⟨s, hs, hsf, hp, hc⟩
    have := h s hs
    rw [Nat.testBit_land, Nat.testBit_land, hp, hc, (testBit_fileMasks f hf s hs).mpr hsf] at this
    exact Bool.noConfusion this
  · intro h s hs
    by_contra hb
    rw [Bool.not_eq_false, Nat.testBit_land, Nat.testBit_land, Bool.and_eq_true,
      Bool.and_eq_true] at hb
    exact h ⟨s, hs, (testBit_fileMasks f hf s hs).mp hb.1.1, hb.1.2, hb.2⟩

/-- C13: rook file openness. For every board and file 0..7, `openFile` is 2 exactly when no
pawn of either colour is on the file, 1 exactly when pawns of one colour only are on it, 0
exactly when pawns of both colours are; it is at most 2, and it takes no rook colour:
exchanging the two colour bitboards leaves it unchanged. -/
theorem openFile_spec (b : Board) (f : Nat) (hf : f < 8) :
    (openFile b f = 2 ↔ ¬ pawnOnFile b WHITE f ∧ ¬ pawnOnFile b BLACK f) ∧
    (openFile b f = 1 ↔ (pawnOnFile b WHITE f ∧ ¬ pawnOnFile b BLACK f) ∨
      (¬ pawnOnFile b WHITE f ∧ pawnOnFile b BLACK f)) ∧
    (openFile b f = 0 ↔ pawnOnFile b WHITE f ∧ pawnOnFile b BLACK f) ∧
    openFile b f ≤ 2 ∧
    openFile (swapColors b) f = openFile b f := by
  have hW := fileMask_pawns_eq_zero b WHITE f hf
  have hB := fileMask_pawns_eq_zero b BLACK f hf
  have hsw : openFile (swapColors b) f = openFile b f := by
    unfold openFile swapColors
    simp only [if_true, show ¬ (BLACK = WHITE) by decide, if_false]
    exact Nat.add_comm _ _
  refine ⟨?_, ?_, ?_, ?_, hsw⟩ <;> unfold openFile <;> dsimp only <;>
    by_cases h1 : fileMasks f &&& b.pieces PAWN &&& b.colors WHITE = 0 <;>
    by_cases h2 : fileMasks f &&& b.pieces PAWN &&& b.colors BLACK = 0 <;>
    simp only [h1, h2, if_true, if_false] <;>
    have n1 := hW <;> have n2 := hB <;>
    simp only [h1, h2, true_iff, false_iff, not_not] at n1 n2 <;>
    simp [n1, n2]

/-- The population count of the empty word. -/
theorem countBits_zero : countBits 0 = 0 := by decide

/-- C16: empty input yields zero. The four piece evaluators return 0 on the empty piece
bitboard and `evaluatePawns` returns 0 on the empty own-pawn bitboard, whatever the other
arguments are. -/
theorem empty_input_zero (K : Consts) (b : Board) (safeSquares enemyKingRing color enemyPawns : Nat)
    (phase : ℚ) :
    evaluateKnights K 0 safeSquares enemyKingRing = 0 ∧
    evaluateBishops K b 0 safeSquares enemyKingRing color = 0 ∧
    evaluateRooks K b 0 safeSquares enemyKingRing color = 0 ∧
    evaluateQueens K b 0 safeSquares enemyKingRing color = 0 ∧
    evaluatePawns K b 0 enemyPawns color phase = 0 := by
  refine ⟨?_, ?_, ?_, ?_, ?_⟩
  · simp [evaluateKnights, popLoop]
  · simp [evaluateBishops, popLoop]
  · simp [evaluateRooks, popLoop]
  · simp [evaluateQueens, popLoop]
  · simp [evaluatePawns, popLoop, supportedCount, phalanxCount, countBits_zero]

/-- The loop body of `evaluateKnights` adds the per-knight term of the specification. -/
theorem attackTerms_knight (K : Consts) (safeSquares enemyKingRing s : Nat) :
    attackTerms K K.knightMobility KNIGHT (K.knightAttacks s) safeSquares enemyKingRing
      = knightTerm K safeSquares enemyKingRing s := by
  unfold attackTerms knightTerm
  dsimp only
  split <;> simp

/-- C17: knight evaluator as a sum. For every 64-bit knight bitboard `evaluateKnights` is
the sum over its set squares of mobility bonus, king-ring squares times the per-square bonus,
and the king-attacker bonus once when any ring square is attacked; running the loop body over
the set squares in any other order gives the same result. -/
theorem evaluateKnights_sum (K : Consts) (pieces safeSquares enemyKingRing : Nat)
    (hp : pieces < 2 ^ 64) :
    evaluateKnights K pieces safeSquares enemyKingRing
      = ((bitsOf pieces).map (knightTerm K safeSquares enemyKingRing)).sum ∧
    (∀ s, s ∈ bitsOf pieces ↔ s < 64 ∧ pieces.testBit s = true) ∧
    (∀ l : List Nat, List.Perm l (bitsOf pieces) →
      l.foldl (fun eval sqr =>
          eval + attackTerms K K.knightMobility KNIGHT (K.knightAttacks sqr)
            safeSquares enemyKingRing) 0
        = evaluateKnights K pieces safeSquares enemyKingRing) := by
  have h := evaluateKnights_eq_sum K pieces safeSquares enemyKingRing hp
  have hfun : (fun s => attackTerms K K.knightMobility KNIGHT (K.knightAttacks s)
      safeSquares enemyKingRing) = knightTerm K safeSquares enemyKingRing :=
    funext (attackTerms_knight K safeSquares enemyKingRing)
  refine ⟨?_, ?_, ?_⟩
  · rw [h, hfun]
  · intro s
    unfold bitsOf
    rw [List.mem_filter, List.mem_range]
  · intro l hl
    rw [foldl_add_eq_sum, zero_add, h]
    exact (hl.map _).sum_eq

/-- The table entries are 64-bit words. -/
theorem passedPawnMasks_lt : ∀ sqr < 64, ∀ color < 2, passedPawnMasks sqr color < 2 ^ 64 := by
  decide

/-- The mask built inside `passed` is the table entry. -/
theorem passed_inline_mask : ∀ sqr < 64, ∀ color < 2,
    passedRankMask (sqr / 8) color &&& passedFileMask sqr = passedPawnMasks sqr color := by
  decide

/-- C18: the inline mask of `passed` agrees with the table. For every square and colour the
mask `rankMask & fileMask` of `passed` is `passedPawnMasks sqr color`; so a non-zero result of
`passed` means the table mask meets no enemy pawn, and a table mask meeting an enemy pawn
makes `passed` return 0. -/
theorem passed_mask_agrees (sqr enemyPawns color : Nat) (hs : sqr < 64)
    (hc : color = WHITE ∨ color = BLACK) :
    passedRankMask (sqr / 8) color &&& passedFileMask sqr = passedPawnMasks sqr color ∧
    passed sqr enemyPawns color =
      (if countBits (passedPawnMasks sqr color &&& enemyPawns) = 0 then
        (if color = WHITE then ((sqr / 8 : Nat) : Int) else 7 - ((sqr / 8 : Nat) : Int))
       else 0) ∧
    (passed sqr enemyPawns color ≠ 0 → passedPawnMasks sqr color &&& enemyPawns = 0) ∧
    (passedPawnMasks sqr color &&& enemyPawns ≠ 0 → passed sqr enemyPawns color = 0) := by
  have hc2 : color < 2 := by rcases hc with rfl | rfl <;> decide
  have hm := passed_inline_mask sqr hs color hc2
  have hlt : passedPawnMasks sqr color &&& enemyPawns < 2 ^ 64 :=
    lt_of_le_of_lt Nat.and_le_left (passedPawnMasks_lt sqr hs color hc2)
  have hp : passed sqr enemyPawns color =
      (if countBits (passedPawnMasks sqr color &&& enemyPawns) = 0 then
        (if color = WHITE then ((sqr / 8 : Nat) : Int) else 7 - ((sqr / 8 : Nat) : Int))
       else 0) := by
    rw [passed_eq, hm]
  refine ⟨hm, hp, ?_, ?_⟩
  · intro hne
    rw [eq_zero_iff_countBits hlt]
    by_contra h0
    rw [hp, if_neg h0] at hne
    exact hne rfl
  · intro hne
    rw [hp, if_neg (fun h0 => hne ((eq_zero_iff_countBits hlt).mpr h0))]

set_option maxRecDepth 100000 in
/-- Witness of `bishop_pair_once`: the two sample bishops on c1 and d3. -/
theorem bishop_pair_once_witness :
    (2 ^ 2 + 2 ^ 19 : Nat) < 2 ^ 64 ∧ 2 ≤ countBits (2 ^ 2 + 2 ^ 19) ∧
    evaluateBishops demoConsts (mkBoard sampleCodes 5) (2 ^ 2 + 2 ^ 19) 0 0 WHITE =
      ((bitsOf (2 ^ 2 + 2 ^ 19)).map (fun s =>
        attackTerms demoConsts demoConsts.bishopMobility BISHOP
          (demoConsts.getBishopAttacks (mkBoard sampleCodes 5) WHITE s) 0 0)).sum
        + demoConsts.bishopPairBonus :=
  ⟨by decide, by decide,
   (bishop_pair_once demoConsts (mkBoard sampleCodes 5) (2 ^ 2 + 2 ^ 19) 0 0 WHITE (by decide)).2.2
     (by decide)⟩

/-- Witness of `openFile_spec`: file A of the starting position. -/
theorem openFile_spec_witness :
    0 < 8 ∧ openFile (mkBoard startCodes 0) 0 ≤ 2 ∧
    openFile (swapColors (mkBoard startCodes 0)) 0 = openFile (mkBoard startCodes 0) 0 :=
  ⟨by decide, (openFile_spec (mkBoard startCodes 0) 0 (by decide)).2.2.2⟩

/-- Witness of `evaluateKnights_sum`: the sample knight on f3. -/
theorem evaluateKnights_sum_witness :
    (2 ^ 21 : Nat) < 2 ^ 64 ∧
    evaluateKnights demoConsts (2 ^ 21) (2 ^ 64 - 1) (genKingRing 62)
      = ((bitsOf (2 ^ 21)).map (knightTerm demoConsts (2 ^ 64 - 1) (genKingRing 62))).sum :=
  ⟨by decide, (evaluateKnights_sum demoConsts (2 ^ 21) (2 ^ 64 - 1) (genKingRing 62) (by decide)).1⟩

/-- Witness of `passed_mask_agrees`: square 28, White, enemy pawns on 17 and 51. -/
theorem passed_mask_agrees_witness :
    28 < 64 ∧ (WHITE = WHITE ∨ WHITE = BLACK) ∧
    passedRankMask (28 / 8) WHITE &&& passedFileMask 28 = passedPawnMasks 28 WHITE ∧
    (passedPawnMasks 28 WHITE &&& (2 ^ 51 + 2 ^ 17) ≠ 0 → passed 28 (2 ^ 51 + 2 ^ 17) WHITE = 0) :=
  ⟨by decide, by decide,
   (passed_mask_agrees 28 (2 ^ 51 + 2 ^ 17) WHITE (by decide) (by decide)).1,
   (passed_mask_agrees 28 (2 ^ 51 + 2 ^ 17) WHITE (by decide) (by decide)).2.2.2⟩

/-- Squares attacked by Black pawns, as `evaluate` computes them by shifts. -/
theorem blackPawnAttacks_testBit (bp t : Nat) (hbp : bp < 2 ^ 64) (ht : t < 64) :
    ((shr bp 7 &&& bnot fileAMask) ||| (shr bp 9 &&& bnot fileHMask)).testBit t = true
      ↔ pawnAttacks bp BLACK t := by
  rw [Nat.testBit_lor, Nat.testBit_land, Nat.testBit_land, testBit_shr, testBit_shr,
    testBit_bnot, testBit_bnot, testBit_fileAMask, testBit_fileHMask]
  unfold pawnAttacks
  simp only [show ¬ (BLACK = WHITE) by decide, if_false, ht, decide_True, Bool.true_and,
    Bool.or_eq_true, Bool.and_eq_true, Bool.not_eq_true', decide_eq_false_iff_not]
  constructor
  · rintro (⟨h1, h2⟩ | ⟨h1, h2⟩)
    · have hlt : 7 + t < 64 := by
        by_contra hge
        rw [testBit_false_of_lt hbp (not_lt.mp hge)] at h1
        exact Bool.noConfusion h1
      exact ⟨7 + t, hlt, h1, by omega, by omega⟩
    · have hlt : 9 + t < 64 := by
        by_contra hge
        rw [testBit_false_of_lt hbp (not_lt.mp hge)] at h1
        exact Bool.noConfusion h1
      exact ⟨9 + t, hlt, h1, by omega, by omega⟩
  · rintro ⟨p, hp, hb, hr, hf | hf⟩
    · left
      have e : 7 + t = p := by omega
      exact ⟨e ▸ hb, by omega⟩
    · right
      have e : 9 + t = p := by omega
      exact ⟨e ▸ hb, by omega⟩

/-- Squares attacked by White pawns, as `evaluate` computes them by shifts. -/
theorem whitePawnAttacks_testBit (wp t : Nat) (ht : t < 64) :
    ((shl wp 7 &&& bnot fileHMask) ||| (shl wp 9 &&& bnot fileAMask)).testBit t = true
      ↔ pawnAttacks wp WHITE t := by
  rw [Nat.testBit_lor, Nat.testBit_land, Nat.testBit_land, testBit_shl, testBit_shl,
    testBit_bnot, testBit_bnot, testBit_fileAMask, testBit_fileHMask]
  unfold pawnAttacks
  simp only [if_true, ht, decide_True, Bool.true_and,
    Bool.or_eq_true, Bool.and_eq_true, Bool.not_eq_true', decide_eq_false_iff_not,
    decide_eq_true_eq]
  constructor
  · rintro (⟨⟨h0, h1⟩, h2⟩ | ⟨⟨h0, h1⟩, h2⟩)
    · exact ⟨t - 7, by omega, h1, by omega, by omega⟩
    · exact ⟨t - 9, by omega, h1, by omega, by omega⟩
  · rintro ⟨p, hp, hb, hr, hf | hf⟩
    · right
      have e : t - 9 = p := by omega
      exact ⟨⟨by omega, e ▸ hb⟩, by omega⟩
    · left
      have e : t - 7 = p := by omega
      exact ⟨⟨by omega, e ▸ hb⟩, by omega⟩

/-- C14 amended: safe squares. On a board whose empty-square bitboard `colors[NO_COLOR]` is
the complement of the two colour bitboards, a square is in the safe-squares bitboard of a
side exactly when it is not attacked by an enemy pawn capture and is empty (occupied by
neither side); the pawn attacks are those of pawns on a horizontally adjacent file one rank
away, so none wraps across the A/H boundary. -/
theorem safeSquares_spec (b : Board) (hB : b.colors BLACK < 2 ^ 64)
    (hE : b.colors NO_COLOR = bnot (b.colors WHITE ||| b.colors BLACK)) (t : Nat) (ht : t < 64) :
    ((whiteSafeSquaresOf b).testBit t = true ↔
      ¬ pawnAttacks (b.pieces PAWN &&& b.colors BLACK) BLACK t ∧
        (b.colors WHITE).testBit t = false ∧ (b.colors BLACK).testBit t = false) ∧
    ((blackSafeSquaresOf b).testBit t = true ↔
      ¬ pawnAttacks (b.pieces PAWN &&& b.colors WHITE) WHITE t ∧
        (b.colors WHITE).testBit t = false ∧ (b.colors BLACK).testBit t = false) := by
  have hbp : b.pieces PAWN &&& b.colors BLACK < 2 ^ 64 := Nat.and_lt_two_pow _ hB
  have hEt : (b.colors NO_COLOR).testBit t = true ↔
      (b.colors WHITE).testBit t = false ∧ (b.colors BLACK).testBit t = false := by
    rw [hE, testBit_bnot, Nat.testBit_lor]
    simp [ht]
  have key : ∀ X : Nat, ((decide (t < 64) && !X.testBit t) = true ∧
      ((b.colors WHITE).testBit t = false ∧ (b.colors BLACK).testBit t = false)) ↔
      (¬ (X.testBit t = true) ∧
        (b.colors WHITE).testBit t = false ∧ (b.colors BLACK).testBit t = false) := by
    intro X
    cases X.testBit t <;> simp [ht]
  constructor
  · unfold whiteSafeSquaresOf
    dsimp only
    rw [Nat.testBit_land, Bool.and_eq_true, testBit_bnot, hEt,
      ← blackPawnAttacks_testBit _ t hbp ht]
    exact key _
  · unfold blackSafeSquaresOf
    dsimp only
    rw [Nat.testBit_land, Bool.and_eq_true, testBit_bnot, hEt,
      ← whitePawnAttacks_testBit _ t ht]
    exact key _

set_option maxRecDepth 100000 in
/-- Witness of `safeSquares_spec`: square d4 (27) of the sample position, attacked by the
Black pawn on c5. -/
theorem safeSquares_spec_witness :
    (mkBoard sampleCodes 5).colors BLACK < 2 ^ 64 ∧
    (mkBoard sampleCodes 5).colors NO_COLOR
      = bnot ((mkBoard sampleCodes 5).colors WHITE ||| (mkBoard sampleCodes 5).colors BLACK) ∧
    27 < 64 ∧
    ((whiteSafeSquaresOf (mkBoard sampleCodes 5)).testBit 27 = true ↔
      ¬ pawnAttacks ((mkBoard sampleCodes 5).pieces PAWN &&& (mkBoard sampleCodes 5).colors BLACK)
          BLACK 27 ∧
        ((mkBoard sampleCodes 5).colors WHITE).testBit 27 = false ∧
        ((mkBoard sampleCodes 5).colors BLACK).testBit 27 = false) :=
  ⟨by decide, by decide, by decide,
   (safeSquares_spec (mkBoard sampleCodes 5) (by decide) (by decide) 27 (by decide)).1⟩

set_option maxRecDepth 100000 in
/-- C14 as stated fails: in the sample position square a8 (56) holds a Black rook, is not
attacked by a Black pawn and is not occupied by a White piece, yet it is not in White's
safe-squares bitboard, because that bitboard is restricted to empty squares. -/
theorem safeSquares_counterexample :
    (mkBoard sampleCodes 5).colors BLACK < 2 ^ 64 ∧
    (mkBoard sampleCodes 5).colors NO_COLOR
      = bnot ((mkBoard sampleCodes 5).colors WHITE ||| (mkBoard sampleCodes 5).colors BLACK) ∧
    ¬ pawnAttacks ((mkBoard sampleCodes 5).pieces PAWN &&& (mkBoard sampleCodes 5).colors BLACK)
        BLACK 56 ∧
    ((mkBoard sampleCodes 5).colors WHITE).testBit 56 = false ∧
    ((mkBoard sampleCodes 5).colors BLACK).testBit 56 = true ∧
    (whiteSafeSquaresOf (mkBoard sampleCodes 5)).testBit 56 = false := by
  decide

/-- No White pawn of the starting position is passed. -/
theorem start_passed_white : ∀ s, 8 ≤ s → s < 16 → passed s startBlackPawns WHITE = 0 := by
  decide

/-- No Black pawn of the starting position is passed. -/
theorem start_passed_black : ∀ s, 48 ≤ s → s < 56 → passed s startWhitePawns BLACK = 0 := by
  decide

/-- Popping as many bits as are set empties the word, and not earlier. -/
theorem popBit_iterate : ∀ (n x : Nat), x < 2 ^ 64 → (bitsOf x).length = n →
    (fun y => (popBit y).2)^[n] x = 0 ∧ ∀ j, j < n → (fun y => (popBit y).2)^[j] x ≠ 0 := by
  intro n
  induction n with
  | zero =>
    intro x hx hlen
    exact ⟨bitsOf_eq_nil hx (List.length_eq_zero.mp hlen), fun j hj => absurd hj (Nat.not_lt_zero j)⟩
  | succ n ih =>
    intro x hx hlen
    have h0 : x ≠ 0 := by
      intro h
      rw [h, bitsOf_zero] at hlen
      exact Nat.succ_ne_zero n hlen.symm
    have hb := bitsOf_popBit x hx h0
    rw [hb, List.length_cons] at hlen
    obtain ⟨h1, h2⟩ := ih _ (popBit_lt x hx) (Nat.succ_injective hlen)
    refine ⟨by rw [Function.iterate_succ_apply]; exact h1, ?_⟩
    intro j hj
    cases j with
    | zero => exact h0
    | succ j =>
      rw [Function.iterate_succ_apply]
      exact h2 j (Nat.lt_of_succ_lt_succ hj)

/-- Rounding an integer gives the integer. -/
theorem roundHalfEven_intCast (n : Int) : roundHalfEven (n : ℚ) = n := by
  unfold roundHalfEven
  simp

/-- The exponent search answers at least -126. -/
theorem f32ExpSearch_ge (q : ℚ) : ∀ n, -126 ≤ f32ExpSearch q n := by
  intro n
  induction n with
  | zero => exact le_rfl
  | succ n ih =>
    unfold f32ExpSearch
    split
    · omega
    · exact ih

/-- The exponent search answers below `n - 126`. -/
theorem f32ExpSearch_le (q : ℚ) : ∀ n, f32ExpSearch q n ≤ (n : Int) - 126 := by
  intro n
  induction n with
  | zero => exact le_rfl
  | succ n ih =>
    unfold f32ExpSearch
    split
    · push_cast; omega
    · push_cast; omega

/-- The exponent search answers an exponent whose power of two is below the value, unless it
answers -126. -/
theorem f32ExpSearch_lower (q : ℚ) : ∀ n,
    (2 : ℚ) ^ (f32ExpSearch q n) ≤ |q| ∨ f32ExpSearch q n = -126 := by
  intro n
  induction n with
  | zero => right; rfl
  | succ n ih =>
    unfold f32ExpSearch
    split
    · next h => left; exact h
    · exact ih

/-- The value lies below the next power of two of the exponent found. -/
theorem f32ExpSearch_upper (q : ℚ) : ∀ n : Nat, |q| < (2 : ℚ) ^ ((n : Int) - 126) →
    |q| < (2 : ℚ) ^ (f32ExpSearch q n + 1) := by
  intro n
  induction n with
  | zero =>
    intro h
    unfold f32ExpSearch
    refine lt_of_lt_of_le h (zpow_le_zpow_right₀ (by norm_num) (by norm_num))
  | succ n ih =>
    intro h
    unfold f32ExpSearch
    split
    · have e : (n : Int) - 126 + 1 = ((n + 1 : Nat) : Int) - 126 := by push_cast; ring
      rw [e]; exact h
    · next hn => exact ih (not_le.mp hn)

/-- The unit in the last place is positive. -/
theorem f32Ulp_pos (q : ℚ) : 0 < f32Ulp q := zpow_pos (by norm_num) _

/-- The rounding in terms of the unit in the last place. -/
theorem f32_eq (q : ℚ) : f32 q = (roundHalfEven (q / f32Ulp q) : ℚ) * f32Ulp q := rfl

/-- The exponent of a value inside the binary32 range. -/
theorem f32Exponent_spec (q : ℚ) (hq : |q| < (2 : ℚ) ^ (128 : Int)) :
    -126 ≤ f32Exponent q ∧ f32Exponent q ≤ 127 ∧
    |q| < (2 : ℚ) ^ (f32Exponent q + 1) ∧
    ((2 : ℚ) ^ (f32Exponent q) ≤ |q| ∨ f32Exponent q = -126) := by
  unfold f32Exponent
  refine ⟨f32ExpSearch_ge q 254, ?_, ?_, f32ExpSearch_lower q 254⟩
  · have hle := f32ExpSearch_le q 254
    have hl := f32ExpSearch_lower q 254
    by_contra hgt
    have h128 : f32ExpSearch q 254 = 128 := by push_cast at hle; omega
    rcases hl with hl | hl
    · rw [h128] at hl
      exact absurd hq (not_lt.mpr hl)
    · omega
  · exact f32ExpSearch_upper q 254 (by norm_num at hq ⊢; exact hq)

/-- A value whose quotient by its unit in the last place is an integer is a binary32 value. -/
theorem f32_of_int_quot (q : ℚ) (z : Int) (h : q / f32Ulp q = (z : ℚ)) : f32 q = q := by
  rw [f32_eq, h, roundHalfEven_intCast, ← h, div_mul_cancel₀ _ (f32Ulp_pos q).ne']

/-- Every `m * 2 ^ c` with `|m| ≤ 2 ^ 24` and `c` in the binary32 range is a binary32 value:
rounding leaves it unchanged. -/
theorem f32_of_scaled (m c : Int) (hm : |m| ≤ 2 ^ 24) (hc : -149 ≤ c) (hc2 : c ≤ 103) :
    f32 ((m : ℚ) * (2 : ℚ) ^ c) = (m : ℚ) * (2 : ℚ) ^ c := by
  have h2 : (2 : ℚ) ≠ 0 := by norm_num
  have hmq : |(m : ℚ)| ≤ 2 ^ (24 : Nat) := by
    have : ((|m| : Int) : ℚ) ≤ ((2 ^ 24 : Int) : ℚ) := by exact_mod_cast hm
    simpa using this
  have hcpos : (0 : ℚ) < (2 : ℚ) ^ c := zpow_pos (by norm_num) _
  have habs : |(m : ℚ) * (2 : ℚ) ^ c| = |(m : ℚ)| * (2 : ℚ) ^ c := by
    rw [abs_mul, abs_of_pos hcpos]
  have h24 : (2 : ℚ) ^ (24 : Int) = 2 ^ (24 : Nat) := by norm_num
  have hle : |(m : ℚ) * (2 : ℚ) ^ c| ≤ (2 : ℚ) ^ (24 + c) := by
    rw [habs, zpow_add₀ h2, h24]
    exact mul_le_mul_of_nonneg_right hmq hcpos.le
  have hq : |(m : ℚ) * (2 : ℚ) ^ c| < (2 : ℚ) ^ (128 : Int) :=
    lt_of_le_of_lt hle (zpow_lt_zpow_right₀ (by norm_num) (by omega))
  obtain ⟨hge, _, _, hlow⟩ := f32Exponent_spec _ hq
  set e := f32Exponent ((m : ℚ) * (2 : ℚ) ^ c) with he
  have hquot : (m : ℚ) * (2 : ℚ) ^ c / f32Ulp ((m : ℚ) * (2 : ℚ) ^ c)
      = (m : ℚ) * (2 : ℚ) ^ (c - (e - 23)) := by
    unfold f32Ulp
    rw [← he, zpow_sub₀ h2 c (e - 23), mul_div_assoc]
  by_cases hcase : e - 23 ≤ c
  · -- the unit in the last place divides `2 ^ c`
    obtain ⟨k, hk⟩ := Int.eq_ofNat_of_zero_le (by omega : 0 ≤ c - (e - 23))
    apply f32_of_int_quot _ (m * 2 ^ k)
    rw [hquot, hk, zpow_natCast]
    push_cast
    ring
  · -- the value is exactly `± 2 ^ (24 + c)`
    have hne : e ≠ -126 := by omega
    have hlow' : (2 : ℚ) ^ e ≤ |(m : ℚ) * (2 : ℚ) ^ c| := by
      rcases hlow with h | h
      · exact h
      · exact absurd h hne
    have hee : e ≤ 24 + c := by
      by_contra hgt
      have : (2 : ℚ) ^ (24 + c) < (2 : ℚ) ^ e :=
        zpow_lt_zpow_right₀ (by norm_num) (by omega)
      linarith
    have heq : e = 24 + c := by omega
    have hm24 : |(m : ℚ)| = 2 ^ (24 : Nat) := by
      apply le_antisymm hmq
      rw [heq, habs, zpow_add₀ h2, h24] at hlow'
      exact le_of_mul_le_mul_right hlow' hcpos
    have hexp : c - (e - 23) = -1 := by omega
    rcases abs_choice (m : ℚ) with hpos | hneg
    · apply f32_of_int_quot _ (2 ^ 23)
      rw [hquot, hexp, ← abs_of_nonneg (abs_eq_self.mp hpos), hm24]
      norm_num
    · apply f32_of_int_quot _ (-(2 ^ 23))
      have hm' : (m : ℚ) = -(2 ^ (24 : Nat)) := by
        rw [← hm24, hneg, neg_neg]
      rw [hquot, hexp, hm']
      norm_num

/-- Integers of magnitude at most `2 ^ 24` convert to `float` exactly. -/
theorem f32_intCast (n : Int) (hn : |n| ≤ 2 ^ 24) : f32 (n : ℚ) = (n : ℚ) := by
  have := f32_of_scaled n 0 hn (by norm_num) (by norm_num)
  simpa using this

/-- One iteration of the pawn loop when the square ahead is empty. -/
theorem pawnStep_free (K : Consts) (b : Board) (enemyPawns color : Nat) (phase : ℚ)
    (eval : Int) (sqr : Nat)
    (hfree : b.squares ((sqr : Int) + forwardOf color) = K.EMPTY) :
    pawnStep K b enemyPawns color phase eval sqr
      = truncQ (f32 (f32 (eval : ℚ) + f32 (passedScoreOf K sqr enemyPawns color phase : ℚ))) := by
  unfold forwardOf at hfree
  unfold pawnStep
  simp only [hfree, if_true]

/-- A White pawn of the starting position adds the passed bonus of rank 0 in binary32. -/
theorem start_step_white (K : Consts) (b : Board) (phase : ℚ)
    (hempty : ∀ i : Nat, 16 ≤ i → i < 48 → b.squares (i : Int) = K.EMPTY)
    (eval : Int) (s : Nat) (h1 : 8 ≤ s) (h2 : s < 16) :
    pawnStep K b startBlackPawns WHITE phase eval s
      = truncQ (f32 (f32 (eval : ℚ)
          + f32 (K.taperedScore (K.passedBonus 0).1 (K.passedBonus 0).2 phase : ℚ))) := by
  rw [pawnStep_free]
  · unfold passedScoreOf
    rw [start_passed_white s h1 h2]
  · have := hempty (s + 8) (by omega) (by omega)
    unfold forwardOf
    rw [if_pos rfl]
    exact_mod_cast this

/-- A Black pawn of the starting position adds the passed bonus of rank 0 in binary32. -/
theorem start_step_black (K : Consts) (b : Board) (phase : ℚ)
    (hempty : ∀ i : Nat, 16 ≤ i → i < 48 → b.squares (i : Int) = K.EMPTY)
    (eval : Int) (s : Nat) (h1 : 48 ≤ s) (h2 : s < 56) :
    pawnStep K b startWhitePawns BLACK phase eval s
      = truncQ (f32 (f32 (eval : ℚ)
          + f32 (K.taperedScore (K.passedBonus 0).1 (K.passedBonus 0).2 phase : ℚ))) := by
  rw [pawnStep_free]
  · unfold passedScoreOf
    rw [start_passed_black s h1 h2]
  · have := hempty (s - 8) (by omega) (by omega)
    unfold forwardOf
    rw [if_neg (by decide)]
    have e : ((s : Nat) : Int) + -8 = ((s - 8 : Nat) : Int) := by omega
    rw [e]
    exact this

/-- Repeated binary32 addition of an integer is exact while the totals have magnitude at most
`2 ^ 24`. -/
theorem iterate_add_exact (p : Int) : ∀ (n : Nat) (e : Int), |e| + n * |p| ≤ 2 ^ 24 →
    (fun x : Int => truncQ (f32 (f32 (x : ℚ) + f32 (p : ℚ))))^[n] e = e + n * p := by
  intro n
  induction n with
  | zero => intro e _; simp
  | succ n ih =>
    intro e h
    have hp0 := abs_nonneg p
    have he0 := abs_nonneg e
    have hn0 : (0 : Int) ≤ (n : Int) * |p| := mul_nonneg (Int.ofNat_nonneg n) hp0
    push_cast at h
    have he : |e| ≤ 2 ^ 24 := by nlinarith
    have hp : |p| ≤ 2 ^ 24 := by nlinarith
    have hep : |e + p| ≤ 2 ^ 24 := le_trans (abs_add e p) (by nlinarith)
    rw [Function.iterate_succ_apply]
    have hstep : truncQ (f32 (f32 (e : ℚ) + f32 (p : ℚ))) = e + p := by
      rw [f32_intCast e he, f32_intCast p hp, ← Int.cast_add, f32_intCast _ hep, truncQ_intCast]
    rw [hstep, ih (e + p) (le_trans (add_le_add_right (abs_add e p) _) (by nlinarith))]
    push_cast
    ring

/-- C15: starting-position pawn structure. With White pawns on squares 8..15, Black pawns on
48..55 and squares 16..47 empty, `passed` returns 0 for each of the 16 pawns, and for every
phase `evaluatePawns` gives the same value for White and for Black, so the pawn-structure
contribution to `evaluate` is 0.  Both sides start from 14 phalanx counts and add the rank-0
passed bonus eight times in binary32; the common value is 14 phalanx bonuses plus 8 rank-0
bonuses whenever the totals have magnitude at most `2 ^ 24`. -/
theorem start_pawn_structure (K : Consts) (b : Board) (phase : ℚ)
    (hempty : ∀ i : Nat, 16 ≤ i → i < 48 → b.squares (i : Int) = K.EMPTY) :
    (∀ s, 8 ≤ s → s < 16 → passed s startBlackPawns WHITE = 0) ∧
    (∀ s, 48 ≤ s → s < 56 → passed s startWhitePawns BLACK = 0) ∧
    evaluatePawns K b startWhitePawns startBlackPawns WHITE phase
      = (fun x : Int => truncQ (f32 (f32 (x : ℚ)
          + f32 (K.taperedScore (K.passedBonus 0).1 (K.passedBonus 0).2 phase : ℚ))))^[8]
          (14 * K.phalanxPawnBonus) ∧
    (|14 * K.phalanxPawnBonus|
        + 8 * |K.taperedScore (K.passedBonus 0).1 (K.passedBonus 0).2 phase| ≤ 2 ^ 24 →
      evaluatePawns K b startWhitePawns startBlackPawns WHITE phase
        = 14 * K.phalanxPawnBonus
          + 8 * K.taperedScore (K.passedBonus 0).1 (K.passedBonus 0).2 phase) ∧
    evaluatePawns K b startWhitePawns startBlackPawns WHITE phase
      = evaluatePawns K b startBlackPawns startWhitePawns BLACK phase ∧
    evaluatePawns K b startWhitePawns startBlackPawns WHITE phase
      - evaluatePawns K b startBlackPawns startWhitePawns BLACK phase = 0 := by
  have hstart : (0 : Int) + ((0 : Nat) : Int) * K.supportedPawnBonus
      + ((14 : Nat) : Int) * K.phalanxPawnBonus = 14 * K.phalanxPawnBonus := by
    push_cast
    ring
  have hW : evaluatePawns K b startWhitePawns startBlackPawns WHITE phase
      = (fun x : Int => truncQ (f32 (f32 (x : ℚ)
          + f32 (K.taperedScore (K.passedBonus 0).1 (K.passedBonus 0).2 phase : ℚ))))^[8]
          (14 * K.phalanxPawnBonus) := by
    unfold evaluatePawns
    rw [popLoop_64 _ _ _ (by decide),
      show bitsOf startWhitePawns = [8, 9, 10, 11, 12, 13, 14, 15] by decide,
      show supportedCount startWhitePawns WHITE = 0 by decide,
      show phalanxCount startWhitePawns = 14 by decide]
    simp only [List.foldl_cons, List.foldl_nil]
    rw [start_step_white K b phase hempty _ 8 (by decide) (by decide),
      start_step_white K b phase hempty _ 9 (by decide) (by decide),
      start_step_white K b phase hempty _ 10 (by decide) (by decide),
      start_step_white K b phase hempty _ 11 (by decide) (by decide),
      start_step_white K b phase hempty _ 12 (by decide) (by decide),
      start_step_white K b phase hempty _ 13 (by decide) (by decide),
      start_step_white K b phase hempty _ 14 (by decide) (by decide),
      start_step_white K b phase hempty _ 15 (by decide) (by decide), hstart]
    rfl
  have hB : evaluatePawns K b startBlackPawns startWhitePawns BLACK phase
      = (fun x : Int => truncQ (f32 (f32 (x : ℚ)
          + f32 (K.taperedScore (K.passedBonus 0).1 (K.passedBonus 0).2 phase : ℚ))))^[8]
          (14 * K.phalanxPawnBonus) := by
    unfold evaluatePawns
    rw [popLoop_64 _ _ _ (by decide),
      show bitsOf startBlackPawns = [48, 49, 50, 51, 52, 53, 54, 55] by decide,
      show supportedCount startBlackPawns BLACK = 0 by decide,
      show phalanxCount startBlackPawns = 14 by decide]
    simp only [List.foldl_cons, List.foldl_nil]
    rw [start_step_black K b phase hempty _ 48 (by decide) (by decide),
      start_step_black K b phase hempty _ 49 (by decide) (by decide),
      start_step_black K b phase hempty _ 50 (by decide) (by decide),
      start_step_black K b phase hempty _ 51 (by decide) (by decide),
      start_step_black K b phase hempty _ 52 (by decide) (by decide),
      start_step_black K b phase hempty _ 53 (by decide) (by decide),
      start_step_black K b phase hempty _ 54 (by decide) (by decide),
      start_step_black K b phase hempty _ 55 (by decide) (by decide), hstart]
    rfl
  refine ⟨start_passed_white, start_passed_black, hW, ?_, ?_, ?_⟩
  · intro hbound
    rw [hW, iterate_add_exact _ 8 _ (by push_cast; exact hbound)]
    push_cast
    ring
  · rw [hW, hB]
  · rw [hW, hB, sub_self]

set_option maxRecDepth 100000 in
/-- Witness of `start_pawn_structure`: the starting position with the sample constants. -/
theorem start_pawn_structure_witness :
    (∀ i : Nat, 16 ≤ i → i < 48 → (mkBoard startCodes 0).squares (i : Int) = demoConsts.EMPTY) ∧
    (mkBoard startCodes 0).pieces PAWN &&& (mkBoard startCodes 0).colors WHITE = startWhitePawns ∧
    (mkBoard startCodes 0).pieces PAWN &&& (mkBoard startCodes 0).colors BLACK = startBlackPawns ∧
    evaluatePawns demoConsts (mkBoard startCodes 0) startWhitePawns startBlackPawns WHITE 1
      - evaluatePawns demoConsts (mkBoard startCodes 0) startBlackPawns startWhitePawns BLACK 1 = 0 :=
  ⟨by decide, by decide, by decide,
   (start_pawn_structure demoConsts (mkBoard startCodes 0) 1 (by decide)).2.2.2.2.2⟩

/-- On ranks index 1..6 both guarded reads of one iteration of the pawn loop succeed, and the
iteration is that of `pawnStep`. -/
theorem pawnStepChecked_eq (K : Consts) (b : Board) (enemyPawns color : Nat) (phase : ℚ)
    (eval : Int) (iterations sqr : Nat) (h1 : 8 ≤ sqr) (h2 : sqr < 56) :
    pawnStepChecked K b enemyPawns color phase (some (eval, iterations)) sqr
      = some (pawnStep K b enemyPawns color phase eval sqr, iterations + 1) := by
  have hr := passed_range sqr enemyPawns color h1 h2
  have hidx : 0 ≤ (sqr : Int) + (if color = WHITE then 8 else -8)
      ∧ (sqr : Int) + (if color = WHITE then 8 else -8) ≤ 63 := by
    split <;> omega
  unfold pawnStepChecked pawnStep passedScoreOf passedBonusAt squareAt
  simp only [hr, hidx, and_self, if_true]

/-- The guarded pawn loop over squares of ranks index 1..6 never fails, computes the total of
the pawn loop and counts one iteration per square. -/
theorem foldl_pawnStepChecked (K : Consts) (b : Board) (enemyPawns color : Nat) (phase : ℚ) :
    ∀ (l : List Nat) (eval : Int) (iterations : Nat), (∀ s, s ∈ l → 8 ≤ s ∧ s < 56) →
      l.foldl (pawnStepChecked K b enemyPawns color phase) (some (eval, iterations))
        = some (l.foldl (pawnStep K b enemyPawns color phase) eval, iterations + l.length) := by
  intro l
  induction l with
  | nil => intro eval iterations _; simp
  | cons x xs ih =>
    intro eval iterations hl
    obtain ⟨h1, h2⟩ := hl x (List.mem_cons_self x xs)
    rw [List.foldl_cons, pawnStepChecked_eq K b enemyPawns color phase eval iterations x h1 h2,
      ih _ _ (fun s hs => hl s (List.mem_cons_of_mem x hs)), List.foldl_cons, List.length_cons]
    congr 2
    omega

/-- C19: index safety of the pawn loop. For each side and every 64-bit own-pawn bitboard
confined to ranks index 1..6, the run of `evaluatePawns` with guarded table reads (the index
of the 7-entry `passedBonus` must lie in 0..6, the mailbox index `sqr + forward` in 0..63)
never fails: with any fuel of at least `countBits pawns` it returns the value of
`evaluatePawns` after exactly `countBits pawns` iterations.  The loop of `evaluatePawns`
visits the set squares of `pawns`, and on each of them `passed` returns a rank in 0..6 and
`sqr + forward` lies in 0..63.  `countBits pawns` pops empty the bitboard and fewer do not. -/
theorem pawn_loop_index_safety (K : Consts) (b : Board) (pawns enemyPawns color : Nat)
    (phase : ℚ) (hp : pawns < 2 ^ 64) (hc : PawnsConfined pawns) :
    (∀ fuel, countBits pawns ≤ fuel →
      evaluatePawnsChecked K b pawns enemyPawns color phase fuel
        = some (evaluatePawns K b pawns enemyPawns color phase, countBits pawns)) ∧
    evaluatePawns K b pawns enemyPawns color phase
      = (bitsOf pawns).foldl (pawnStep K b enemyPawns color phase) (pawnStart K pawns color) ∧
    (∀ s, s ∈ bitsOf pawns →
      (0 ≤ passed s enemyPawns color ∧ passed s enemyPawns color ≤ 6) ∧
      (0 ≤ (s : Int) + (if color = WHITE then 8 else -8) ∧
        (s : Int) + (if color = WHITE then 8 else -8) ≤ 63)) ∧
    (fun y => (popBit y).2)^[countBits pawns] pawns = 0 ∧
    (∀ j, j < countBits pawns → (fun y => (popBit y).2)^[j] pawns ≠ 0) := by
  obtain ⟨h1, h2⟩ := popBit_iterate (countBits pawns) pawns hp rfl
  refine ⟨?_, ?_, ?_, h1, h2⟩
  · intro fuel hfuel
    unfold evaluatePawnsChecked evaluatePawns
    rw [popLoop_eq_foldl _ fuel pawns _ hp hfuel, popLoop_64 _ _ _ hp,
      foldl_pawnStepChecked K b enemyPawns color phase (bitsOf pawns) _ 0
        (fun s hs => hc.range hs), Nat.zero_add]
    rfl
  · unfold evaluatePawns
    rw [popLoop_64 _ _ _ hp]
    rfl
  · intro s hs
    obtain ⟨h8, h56⟩ := hc.range hs
    refine ⟨passed_range s enemyPawns color h8 h56, ?_⟩
    split <;> omega

set_option maxRecDepth 100000 in
/-- Witness of `pawn_loop_index_safety`: White pawns b2 and c3 with the sample constants run
two iterations and score 22.  A White pawn on rank index 7 (c8) makes the guarded run fail:
its mailbox index is 66. -/
theorem pawn_loop_index_safety_witness :
    (2 ^ 9 + 2 ^ 18 : Nat) < 2 ^ 64 ∧ PawnsConfined (2 ^ 9 + 2 ^ 18) ∧
    countBits (2 ^ 9 + 2 ^ 18) = 2 ∧
    evaluatePawns demoConsts (mkBoard blockedCodes 0) (2 ^ 9 + 2 ^ 18) 0 WHITE 1 = 22 ∧
    evaluatePawnsChecked demoConsts (mkBoard blockedCodes 0) (2 ^ 9 + 2 ^ 18) 0 WHITE 1 64
      = some (evaluatePawns demoConsts (mkBoard blockedCodes 0) (2 ^ 9 + 2 ^ 18) 0 WHITE 1,
          countBits (2 ^ 9 + 2 ^ 18)) ∧
    ¬ PawnsConfined (2 ^ 9 + 2 ^ 58) ∧
    evaluatePawnsChecked demoConsts (mkBoard blockedCodes 0) (2 ^ 9 + 2 ^ 58) 0 WHITE 1 64
      = none :=
  ⟨by decide, by decide, by decide, by decide!,
   (pawn_loop_index_safety demoConsts (mkBoard blockedCodes 0) (2 ^ 9 + 2 ^ 18) 0 WHITE 1
      (by decide) (by decide)).1 64 (by decide),
   by decide, by decide!⟩

end Kingfisher
